import Mathlib

/-!
Shallow embedding of the `cache` package (a thread-safe generic cache with
pluggable eviction policies) and proofs of its specified properties.

Modelling conventions:
* Machine time (`time.Now().UnixNano()`, `int64`) is an `Int` passed explicitly
  as a `now` argument to every operation that reads the clock.
* The Go `map[K]*entry` is an association list `List (K × entry V)`; the
  doubly-linked `evictList` is a `List K` with the front element at the head;
  the heap slice `pq.items` is a `List K`.  Go entries carry a heap `index`
  and a list `element` back-pointer which the implementation keeps equal to
  the entry's actual position; here that position is recovered from the key's
  position in the structure (keys are unique in a well-formed cache).
* `Get`'s Go result `(value, found bool)` is rendered as `Option V`
  (`none` = `(zero value, false)`).
* The `container/heap` algorithms (`up`, `down`, `Init`, `Push`, `Pop`,
  `Fix`, `Remove`) are transcribed from the Go standard library with explicit
  fuel (both loops strictly advance their index, so fuel `l.length` always
  suffices).
-/

/-- Policy defines the eviction policy for the cache (Go `type Policy int`
with iota constants LRU, FIFO, LFU, TTL, None). -/
inductive Policy where
  | PolicyLRU
  | PolicyFIFO
  | PolicyLFU
  | PolicyTTL
  | PolicyNone
deriving DecidableEq

/-- Entry metadata (Go `type entry[K comparable, V any] struct`); the `key`,
`index` and `element` fields are represented positionally (see module
docstring), the remaining fields are carried verbatim.  `expiration = 0`
means no TTL. -/
structure entry (V : Type) where
  value : V
  accessTime : Int
  insertionTime : Int
  frequency : Int
  expiration : Int
deriving DecidableEq

/-- Heap comparison `priorityQueue.Less` lifted to the two compared entries
(the Go method reads `pq.items[i]` and `pq.items[j]` and then only inspects
the fields compared here, switching on `pq.policy`). -/
def pqLess (policy : Policy) (a b : entry V) : Bool :=
  match policy with
  | .PolicyLFU =>
    if a.frequency = b.frequency then
      decide (a.accessTime < b.accessTime)
    else
      decide (a.frequency < b.frequency)
  | .PolicyTTL =>
    if a.expiration = 0 ∧ b.expiration = 0 then
      decide (a.accessTime < b.accessTime)
    else if a.expiration = 0 then
      false
    else if b.expiration = 0 then
      true
    else
      decide (a.expiration < b.expiration)
  | _ =>
    decide (a.accessTime < b.accessTime)

section AssocList

variable {K : Type} {V : Type} [DecidableEq K]

/-- Lookup in the association list playing the role of the Go map
(`c.items[key]`). -/
def assocFind (l : List (K × entry V)) (k : K) : Option (entry V) :=
  match l with
  | [] => none
  | (k', e) :: t => if k' = k then some e else assocFind t k

/-- Map write `c.items[key] = item`: replace the binding in place if the key
is present, append otherwise. -/
def assocSet (l : List (K × entry V)) (k : K) (e : entry V) : List (K × entry V) :=
  match l with
  | [] => [(k, e)]
  | (k', e') :: t => if k' = k then (k, e) :: t else (k', e') :: assocSet t k e

/-- Map deletion `delete(c.items, key)`. -/
def assocErase (l : List (K × entry V)) (k : K) : List (K × entry V) :=
  match l with
  | [] => []
  | (k', e') :: t => if k' = k then t else (k', e') :: assocErase t k

/-- Position of a key in a structure list (the value the implementation keeps
in `entry.index` / behind `entry.element`). -/
def idxOf (k : K) : List K → Nat
  | [] => 0
  | k' :: t => if k' = k then 0 else idxOf k t + 1

/-- Keys of the entry store, in store order. -/
def keysOf (l : List (K × entry V)) : List K := l.map Prod.fst

end AssocList

section Heap

variable {α : Type}

/-- Swap of two positions of a list (Go `h.Swap(i, j)`); identity when either
index is out of bounds (the transcribed algorithms only swap in-bounds
indices). -/
def lswap (l : List α) (i j : Nat) : List α :=
  match l[i]?, l[j]? with
  | some a, some b => (l.set i b).set j a
  | _, _ => l

/-- Comparison of two positions (Go `h.Less(i, j)`); `false` when out of
bounds. -/
def lessAt (less : α → α → Bool) (l : List α) (i j : Nat) : Bool :=
  match l[i]?, l[j]? with
  | some a, some b => less a b
  | _, _ => false

/-- Go `container/heap`'s `up(h, j)` loop, with fuel (`j` strictly decreases,
so fuel `l.length` suffices at any start index below `l.length`). -/
def upAux (less : α → α → Bool) : Nat → List α → Nat → List α
  | 0, l, _ => l
  | fuel + 1, l, j =>
    let i := (j - 1) / 2
    if i = j then l
    else if lessAt less l j i then upAux less fuel (lswap l i j) i
    else l

/-- Go `container/heap`'s `down(h, i0, n)` loop, with fuel; returns the list
together with the final index (Go's `down` returns `i > i0`, recovered by
comparing the returned index with the start index). -/
def downAux (less : α → α → Bool) : Nat → List α → Nat → Nat → List α × Nat
  | 0, l, i, _ => (l, i)
  | fuel + 1, l, i, n =>
    let j1 := 2 * i + 1
    if j1 < n then
      let j := if 2 * i + 2 < n ∧ lessAt less l (2 * i + 2) j1 then 2 * i + 2 else j1
      if lessAt less l j i then downAux less fuel (lswap l i j) j n
      else (l, i)
    else (l, i)

/-- Go `heap.Push(h, x)`: append, then sift up from the last position. -/
def heapPush (less : α → α → Bool) (l : List α) (x : α) : List α :=
  upAux less (l.length + 1) (l ++ [x]) l.length

/-- Go `heap.Pop(h)`: swap the root with the last element, sift down over the
prefix, then remove and return the last element.  Returns `none` on the empty
heap (the implementation only pops under a `Len() > 0` guard). -/
def heapPop (less : α → α → Bool) (l : List α) : Option α × List α :=
  if l.isEmpty then (none, [])
  else
    let n := l.length - 1
    let l1 := lswap l 0 n
    let l2 := (downAux less l1.length l1 0 n).1
    (l2.getLast?, l2.dropLast)

/-- Go `heap.Fix(h, i)`: sift down from `i`; if that does not move the
element, sift up from `i`. -/
def heapFix (less : α → α → Bool) (l : List α) (i : Nat) : List α :=
  let p := downAux less l.length l i l.length
  if i < p.2 then p.1 else upAux less l.length p.1 i

/-- Go `heap.Remove(h, i)`: swap position `i` with the last, re-establish the
heap over the prefix, then drop the last element. -/
def heapRemove (less : α → α → Bool) (l : List α) (i : Nat) : List α :=
  let n := l.length - 1
  if i = n then l.dropLast
  else
    let l1 := lswap l i n
    let p := downAux less l1.length l1 i n
    let l3 := if i < p.2 then p.1 else upAux less l1.length p.1 i
    l3.dropLast

/-- Strict-weak-order hypotheses restricted to the elements of a list. -/
def SWOOn (less : α → α → Bool) (l : List α) : Prop :=
  (∀ a ∈ l, less a a = false) ∧
  (∀ a b c, a ∈ l → b ∈ l → c ∈ l → less a b = true → less b c = true → less a c = true) ∧
  (∀ a b c, a ∈ l → b ∈ l → c ∈ l → less a b = false → less b c = false → less a c = false)

/-- Go `container/heap`'s documented invariant for a min-heap laid out in an
array: no element sorts strictly below its parent. -/
def HeapOrdered (less : α → α → Bool) (l : List α) : Prop :=
  ∀ j, j < l.length → 0 < j → lessAt less l j ((j - 1) / 2) = false

instance (less : α → α → Bool) (l : List α) : Decidable (HeapOrdered less l) := by
  unfold HeapOrdered
  exact Nat.decidableBallLT _ _

end Heap

/-- Cache state (Go `type Cache[K comparable, V any] struct`); the mutex is
immaterial in the sequential embedding, the remaining fields are carried
verbatim (`pq`/`evictList` hold key positions, see module docstring). -/
structure Cache (K V : Type) where
  capacity : Int
  policy : Policy
  ttl : Int
  items : List (K × entry V)
  pq : List K
  evictList : List K
deriving DecidableEq

namespace Cache

variable {K V : Type} [DecidableEq K]

/-- Key-position comparison used by the heap: look both keys up in the entry
store and compare the entries with `priorityQueue.Less`'s body. -/
def lessK (policy : Policy) (items : List (K × entry V)) (a b : K) : Bool :=
  match assocFind items a, assocFind items b with
  | some ea, some eb => pqLess policy ea eb
  | _, _ => false

/-- Go `list.MoveToFront` on the recency list, with the element identified by
its key. -/
def moveToFront (l : List K) (k : K) : List K :=
  k :: l.erase k

/-- Go `WithCapacity`: sets the maximum number of items (no validation). -/
def WithCapacity (capacity : Int) : Cache K V → Cache K V :=
  fun c => { c with capacity := capacity }

/-- Go `WithPolicy`: sets the eviction policy. -/
def WithPolicy (policy : Policy) : Cache K V → Cache K V :=
  fun c => { c with policy := policy }

/-- Go `WithTTL`: sets the default time-to-live. -/
def WithTTL (ttl : Int) : Cache K V → Cache K V :=
  fun c => { c with ttl := ttl }

/-- Go `New`: defaults (capacity 0, PolicyLRU, no TTL, empty map), then apply
the options in order.  The structure-initialisation switch only allocates
empty structures, which the embedding represents as empty lists from the
start. -/
def New (opts : List (Cache K V → Cache K V)) : Cache K V :=
  opts.foldl (fun c opt => opt c)
    { capacity := 0, policy := .PolicyLRU, ttl := 0, items := [], pq := [], evictList := [] }

/-- Go `Cache.removeElement`: detach the entry from the active auxiliary
structure, then delete it from the map. -/
def removeElement (c : Cache K V) (k : K) : Cache K V :=
  match c.policy with
  | .PolicyLRU | .PolicyFIFO =>
    { c with evictList := c.evictList.erase k, items := assocErase c.items k }
  | .PolicyLFU | .PolicyTTL =>
    { c with pq := heapRemove (lessK c.policy c.items) c.pq (idxOf k c.pq),
             items := assocErase c.items k }
  | .PolicyNone =>
    { c with items := assocErase c.items k }

/-- Go `Cache.evict`: remove the policy's victim (back of the recency list
for LRU/FIFO, heap root for LFU/TTL; nothing under PolicyNone). -/
def evict (c : Cache K V) : Cache K V :=
  match c.policy with
  | .PolicyLRU | .PolicyFIFO =>
    match c.evictList.getLast? with
    | some k => c.removeElement k
    | none => c
  | .PolicyLFU | .PolicyTTL =>
    if c.pq.length > 0 then
      match heapPop (lessK c.policy c.items) c.pq with
      | (some k, pq') => { c with pq := pq', items := assocErase c.items k }
      | (none, pq') => { c with pq := pq' }
    else c
  | .PolicyNone => c

/-- Go `Cache.Set`: PolicyNone skips all bookkeeping; otherwise update an
existing entry in place (value, access time, frequency, expiration when a
TTL is configured) and re-fix its structure position, or evict when at
capacity and insert a fresh entry (frequency 1). -/
def Set (c : Cache K V) (now : Int) (k : K) (v : V) : Cache K V :=
  if c.policy = .PolicyNone then
    match assocFind c.items k with
    | some e => { c with items := assocSet c.items k { e with value := v } }
    | none => { c with items := assocSet c.items k ⟨v, 0, 0, 0, 0⟩ }
  else
    let expiration : Int := if c.ttl > 0 then now + c.ttl else 0
    match assocFind c.items k with
    | some e =>
      let e' : entry V :=
        { e with value := v, accessTime := now, frequency := e.frequency + 1,
                 expiration := if c.ttl > 0 then expiration else e.expiration }
      let items' := assocSet c.items k e'
      match c.policy with
      | .PolicyLRU =>
        { c with items := items', evictList := moveToFront c.evictList k }
      | .PolicyLFU | .PolicyTTL =>
        { c with items := items', pq := heapFix (lessK c.policy items') c.pq (idxOf k c.pq) }
      | _ => { c with items := items' }
    | none =>
      let c1 := if 0 < c.capacity ∧ c.capacity ≤ (c.items.length : Int) then c.evict else c
      let e : entry V := ⟨v, now, now, 1, expiration⟩
      match c1.policy with
      | .PolicyLRU | .PolicyFIFO =>
        { c1 with items := assocSet c1.items k e, evictList := k :: c1.evictList }
      | .PolicyLFU | .PolicyTTL =>
        let items' := assocSet c1.items k e
        { c1 with items := items', pq := heapPush (lessK c1.policy items') c1.pq k }
      | .PolicyNone =>
        { c1 with items := assocSet c1.items k e }

/-- Go `Cache.Get`: PolicyNone is a pure lookup; otherwise an expired entry
is removed and reported as a miss, and a hit refreshes access time and
frequency and re-fixes the entry's structure position.  Returns the possibly
mutated cache together with `some value` on a hit and `none` on a miss. -/
def Get (c : Cache K V) (now : Int) (k : K) : Cache K V × Option V :=
  if c.policy = .PolicyNone then
    (c, (assocFind c.items k).map (fun e => e.value))
  else
    match assocFind c.items k with
    | some e =>
      if 0 < e.expiration ∧ e.expiration < now then
        (c.removeElement k, none)
      else
        let e' : entry V := { e with accessTime := now, frequency := e.frequency + 1 }
        let items' := assocSet c.items k e'
        let c' :=
          match c.policy with
          | .PolicyLRU =>
            { c with items := items', evictList := moveToFront c.evictList k }
          | .PolicyLFU | .PolicyTTL =>
            { c with items := items', pq := heapFix (lessK c.policy items') c.pq (idxOf k c.pq) }
          | _ => { c with items := items' }
        (c', some e.value)
    | none => (c, none)

/-- Go `Cache.Delete`: remove the key if present; no-op otherwise. -/
def Delete (c : Cache K V) (k : K) : Cache K V :=
  match assocFind c.items k with
  | some _ => c.removeElement k
  | none => c

/-- Go `Cache.Len`: number of live entries (no TTL sweep). -/
def Len (c : Cache K V) : Nat :=
  c.items.length

/-- Go `Cache.Clear`: fresh map, reset auxiliary structures. -/
def Clear (c : Cache K V) : Cache K V :=
  { c with items := [], pq := [], evictList := [] }

/-- Modelled from the spec: the `GetOrSet` implementation is not among the
provided source files (only its test is), so this sequential model follows
§4.2 of the specification: a present, unexpired key is returned immediately
without invoking the loader; otherwise the loader runs, a successful value is
stored through normal `Set` semantics, and an error is returned with nothing
written to the cache.  The final `Bool` records whether the loader was
invoked. -/
def GetOrSet {E : Type} (c : Cache K V) (now : Int) (k : K)
    (loader : Unit → Except E V) : Cache K V × Except E V × Bool :=
  match c.Get now k with
  | (c', some v) => (c', Except.ok v, false)
  | (c', none) =>
    match loader () with
    | Except.ok v => (c'.Set now k v, Except.ok v, true)
    | Except.error err => (c', Except.error err, true)

/-- Policies whose auxiliary structure is the recency list. -/
def usesList (p : Policy) : Prop := p = .PolicyLRU ∨ p = .PolicyFIFO

/-- Policies whose auxiliary structure is the priority queue. -/
def usesHeap (p : Policy) : Prop := p = .PolicyLFU ∨ p = .PolicyTTL

instance (p : Policy) : Decidable (usesList p) := by unfold usesList; infer_instance

instance (p : Policy) : Decidable (usesHeap p) := by unfold usesHeap; infer_instance

/-- Mirror-consistency invariant maintained by every operation: keys are
unique in the entry store and the active auxiliary structure holds exactly
the live keys. -/
def WF (c : Cache K V) : Prop :=
  (keysOf c.items).Nodup ∧
  (usesList c.policy → c.evictList.Perm (keysOf c.items)) ∧
  (usesHeap c.policy → c.pq.Perm (keysOf c.items))

instance (c : Cache K V) : Decidable (WF c) := by unfold WF; infer_instance

/-- The cache-level heap invariant: under a heap policy the priority queue is
heap-ordered for the comparison induced by the live entry store. -/
def HeapWF (c : Cache K V) : Prop :=
  usesHeap c.policy → HeapOrdered (lessK c.policy c.items) c.pq

end Cache

/-- An operation on the cache, for reasoning about arbitrary call sequences;
clock-reading operations carry their `now`. -/
inductive Op (K V : Type) where
  | set (now : Int) (k : K) (v : V)
  | get (now : Int) (k : K)
  | del (k : K)
  | clear

namespace Cache

variable {K V : Type} [DecidableEq K]

/-- Apply one operation to the cache state. -/
def applyOp (c : Cache K V) : Op K V → Cache K V
  | .set now k v => c.Set now k v
  | .get now k => (c.Get now k).1
  | .del k => c.Delete k
  | .clear => c.Clear

/-- Run a sequence of operations. -/
def run (c : Cache K V) (ops : List (Op K V)) : Cache K V :=
  ops.foldl applyOp c

/-- One step of the override semantics of a write trace: the value the trace
leaves for key `k` after one more operation. -/
def writeFold (k : K) (acc : Option V) : Op K V → Option V
  | .set _ k' v => if k' = k then some v else acc
  | .get _ _ => acc
  | .del k' => if k' = k then none else acc
  | .clear => none

/-- The value of the last `Set` of `k` in the trace, unless a later
`Delete k` or `Clear` removed it. -/
def lastWrite (k : K) (ops : List (Op K V)) : Option V :=
  ops.foldl (writeFold k) none

end Cache

/-! Concrete caches used by the claim witnesses and counterexamples. -/

/-- Concrete LRU cache at capacity used by the C1 witness. -/
def c1w : Cache Nat Nat :=
  ((Cache.New [Cache.WithCapacity 2, Cache.WithPolicy Policy.PolicyLRU]).Set 1 10 1).Set 2 20 2

/-- Concrete LRU run of the sequence from C3 (keys: a = 10, b = 20, c = 30;
times 1..4): `Set(a,1); Set(b,2); Get(a); Set(c,3)` with capacity 2. -/
def c3ex : Cache Nat Nat :=
  (((((Cache.New [Cache.WithCapacity 2, Cache.WithPolicy Policy.PolicyLRU] :
    Cache Nat Nat).Set 1 10 1).Set 2 20 2).Get 3 10).1).Set 4 30 3

/-- Concrete cache for the C5 witness: default policy (LRU), default TTL 50,
one entry stored at time 0 (so it expires at 50). -/
def c5w : Cache Nat Nat := (Cache.New [Cache.WithTTL 50] : Cache Nat Nat).Set 0 10 1

/-- Concrete LFU cache for the C6 witness: entries 10 (frequency 3) and 20
(frequency 2). -/
def c6w : Cache Nat Nat :=
  (((((Cache.New [Cache.WithCapacity 2, Cache.WithPolicy Policy.PolicyLFU] :
    Cache Nat Nat).Set 1 10 1).Set 2 20 2).Get 3 10).1.Get 4 10).1

/-- Concrete TTL-policy cache for the C7 witness: entry 10 expires at 100,
entry 20 at 110. -/
def c7w : Cache Nat Nat :=
  ((Cache.New [Cache.WithCapacity 2, Cache.WithPolicy Policy.PolicyTTL,
    Cache.WithTTL 100] : Cache Nat Nat).Set 0 10 1).Set 10 20 2

/-- Concrete TTL-policy cache for the C8 counterexample: `Set 10` and
`Set 20` at time 1 (both expire at 101), then `Get 10` at time 3, leaving
two live entries with equal nonzero expirations but different access
times. -/
def c8x : Cache Nat Nat :=
  ((((Cache.New [Cache.WithPolicy Policy.PolicyTTL, Cache.WithTTL 100] :
    Cache Nat Nat).Set 1 10 1).Set 1 20 2).Get 3 10).1

/-- Concrete cache with capacity `-1` and one entry, for the C9 witness. -/
def c9wc : Cache Nat Nat := (Cache.New [Cache.WithCapacity (-1)]).Set 1 10 1

/-! ### Association-list lemmas -/

section AssocLemmas

variable {K V : Type} [DecidableEq K]


theorem assocFind_eq_none_iff {l : List (K × entry V)} {k : K} :
    assocFind l k = none ↔ k ∉ keysOf l := by
  induction l with
  | nil => simp [assocFind, keysOf]
  | cons p t ih =>
    obtain ⟨k', e⟩ := p
    by_cases h : k' = k <;> simp [assocFind, keysOf, h] at ih ⊢ <;> tauto

theorem mem_keysOf_of_find_some {l : List (K × entry V)} {k : K} {e : entry V}
    (h : assocFind l k = some e) : k ∈ keysOf l := by
  by_contra hmem
  rw [← assocFind_eq_none_iff] at hmem
  rw [hmem] at h
  exact Option.noConfusion h

theorem find_isSome_of_mem_keysOf {l : List (K × entry V)} {k : K}
    (h : k ∈ keysOf l) : ∃ e, assocFind l k = some e := by
  cases hf : assocFind l k with
  | none => exact absurd (assocFind_eq_none_iff.mp hf) (by simpa using h)
  | some e => exact ⟨e, rfl⟩

omit [DecidableEq K] in
theorem mem_keysOf_cases {t : List (K × entry V)} {k k' : K} {e' : entry V}
    (h : k ∈ keysOf ((k', e') :: t)) : k = k' ∨ k ∈ keysOf t := by
  simpa only [keysOf, List.map_cons, List.mem_cons] using h

theorem keysOf_assocSet_of_mem {l : List (K × entry V)} {k : K} (e : entry V)
    (h : k ∈ keysOf l) : keysOf (assocSet l k e) = keysOf l := by
  induction l with
  | nil => simp [keysOf] at h
  | cons p t ih =>
    obtain ⟨k', e'⟩ := p
    by_cases hk : k' = k
    · subst hk
      simp [assocSet, keysOf]
    · have ht : k ∈ keysOf t := by
        rcases mem_keysOf_cases h with h1 | h1
        · exact absurd h1.symm hk
        · exact h1
      simp only [assocSet, if_neg hk, keysOf, List.map_cons]
      have := ih ht
      simp only [keysOf] at this
      rw [this]

theorem assocSet_of_not_mem {l : List (K × entry V)} {k : K} (e : entry V)
    (h : k ∉ keysOf l) : assocSet l k e = l ++ [(k, e)] := by
  induction l with
  | nil => rfl
  | cons p t ih =>
    obtain ⟨k', e'⟩ := p
    have h1 : ¬ (k' = k) := fun hh => h (by simp [keysOf, hh])
    have h2 : k ∉ keysOf t := fun hh => h (by simp only [keysOf, List.map_cons, List.mem_cons]; right; exact hh)
    simp only [assocSet, if_neg h1, List.cons_append]
    rw [ih h2]

theorem keysOf_assocErase {l : List (K × entry V)} {k : K} :
    keysOf (assocErase l k) = (keysOf l).erase k := by
  induction l with
  | nil => rfl
  | cons p t ih =>
    obtain ⟨k', e'⟩ := p
    by_cases hk : k' = k
    · subst hk
      have h1 : assocErase ((k', e') :: t) k' = t := by simp [assocErase]
      rw [h1]
      simp only [keysOf, List.map_cons]
      rw [List.erase_cons_head]
    · simp only [assocErase, if_neg hk, keysOf, List.map_cons]
      rw [List.erase_cons_tail (by simpa using hk)]
      have h2 := ih
      simp only [keysOf] at h2
      rw [h2]

theorem assocFind_assocSet_self {l : List (K × entry V)} (k : K) (e : entry V) :
    assocFind (assocSet l k e) k = some e := by
  induction l with
  | nil => simp [assocSet, assocFind]
  | cons p t ih =>
    obtain ⟨k', e'⟩ := p
    by_cases hk : k' = k <;> simp [assocSet, assocFind, hk, ih]

theorem assocFind_assocSet_ne {l : List (K × entry V)} {k k' : K} (e : entry V)
    (h : k' ≠ k) : assocFind (assocSet l k e) k' = assocFind l k' := by
  induction l with
  | nil =>
    simp only [assocSet, assocFind]
    rw [if_neg (fun hh => h hh.symm)]
  | cons p t ih =>
    obtain ⟨k'', e''⟩ := p
    by_cases hk : k'' = k
    · subst hk
      simp only [assocSet, if_pos rfl, assocFind]
      rw [if_neg (fun hh => h hh.symm), if_neg (fun hh => h hh.symm)]
    · simp only [assocSet, if_neg hk, assocFind]
      rw [ih]

theorem assocFind_assocErase_ne {l : List (K × entry V)} {k k' : K}
    (h : k' ≠ k) : assocFind (assocErase l k) k' = assocFind l k' := by
  induction l with
  | nil => simp [assocErase]
  | cons p t ih =>
    obtain ⟨k'', e''⟩ := p
    by_cases hk : k'' = k
    · subst hk
      have h1 : assocErase ((k'', e'') :: t) k'' = t := by simp [assocErase]
      rw [h1]
      have h2 : assocFind ((k'', e'') :: t) k' = assocFind t k' := by
        simp only [assocFind]
        rw [if_neg (fun hh => h hh.symm)]
      rw [h2]
    · simp only [assocErase, if_neg hk, assocFind]
      by_cases hk' : k'' = k'
      · rw [if_pos hk', if_pos hk']
      · rw [if_neg hk', if_neg hk', ih]

theorem assocFind_assocErase_self {l : List (K × entry V)} {k : K}
    (h : (keysOf l).Nodup) : assocFind (assocErase l k) k = none := by
  rw [assocFind_eq_none_iff, keysOf_assocErase]
  intro hmem
  exact (List.Nodup.not_mem_erase h) hmem

theorem length_assocErase_of_mem {l : List (K × entry V)} {k : K}
    (h : k ∈ keysOf l) : (assocErase l k).length + 1 = l.length := by
  induction l with
  | nil => simp [keysOf] at h
  | cons p t ih =>
    obtain ⟨k', e'⟩ := p
    by_cases hk : k' = k
    · simp [assocErase, hk]
    · simp [keysOf, hk] at h
      cases h with
      | inl h => exact absurd h.symm hk
      | inr h => simp [assocErase, hk, ih (by simpa [keysOf] using h)]

theorem length_assocSet_of_mem {l : List (K × entry V)} {k : K} (e : entry V)
    (h : k ∈ keysOf l) : (assocSet l k e).length = l.length := by
  have := keysOf_assocSet_of_mem (l := l) (k := k) e h
  have h1 : (keysOf (assocSet l k e)).length = (keysOf l).length := by rw [this]
  simpa [keysOf] using h1

theorem length_assocSet_of_not_mem {l : List (K × entry V)} {k : K} (e : entry V)
    (h : k ∉ keysOf l) : (assocSet l k e).length = l.length + 1 := by
  rw [assocSet_of_not_mem e h]
  simp

theorem nodup_keysOf_assocSet {l : List (K × entry V)} {k : K} (e : entry V)
    (h : (keysOf l).Nodup) : (keysOf (assocSet l k e)).Nodup := by
  by_cases hm : k ∈ keysOf l
  · rw [keysOf_assocSet_of_mem e hm]; exact h
  · rw [assocSet_of_not_mem e hm]
    simp only [keysOf, List.map_append, List.map_cons, List.map_nil]
    rw [List.nodup_append]
    exact ⟨h, List.nodup_singleton _, by simpa [keysOf] using hm⟩

theorem nodup_keysOf_assocErase {l : List (K × entry V)} {k : K}
    (h : (keysOf l).Nodup) : (keysOf (assocErase l k)).Nodup := by
  rw [keysOf_assocErase]
  exact h.erase k

end AssocLemmas

/-! ### Position lemmas -/

section IdxLemmas

variable {K : Type} [DecidableEq K]

theorem idxOf_lt_length {k : K} {l : List K} (h : k ∈ l) : idxOf k l < l.length := by
  induction l with
  | nil => simp at h
  | cons k' t ih =>
    by_cases hk : k' = k
    · simp [idxOf, hk]
    · simp [hk] at h
      cases h with
      | inl h => exact absurd h.symm hk
      | inr h => simpa [idxOf, hk] using ih h

theorem getElem?_idxOf {k : K} {l : List K} (h : k ∈ l) : l[idxOf k l]? = some k := by
  induction l with
  | nil => simp at h
  | cons k' t ih =>
    by_cases hk : k' = k
    · simp [idxOf, hk]
    · simp [hk] at h
      cases h with
      | inl h => exact absurd h.symm hk
      | inr h => simpa [idxOf, hk] using ih h

end IdxLemmas

/-! ### Heap permutation lemmas -/

section HeapLemmas

variable {α : Type}

theorem set_getElem_self_eq (l : List α) (i : Nat) (h : i < l.length) :
    l.set i l[i] = l := by
  apply List.ext_getElem?
  intro n
  by_cases hn : i = n
  · subst hn
    rw [List.getElem?_set_self h, List.getElem?_eq_getElem h]
  · rw [List.getElem?_set_ne hn]

theorem lswap_perm (l : List α) (i j : Nat) : (lswap l i j).Perm l := by
  classical
  unfold lswap
  split
  next a b hi hj =>
    obtain ⟨hi', hia⟩ := List.getElem?_eq_some.mp hi
    obtain ⟨hj', hjb⟩ := List.getElem?_eq_some.mp hj
    by_cases hij : i = j
    · subst hij
      have hab : a = b := by rw [← hia, ← hjb]
      subst hab
      rw [List.set_set, ← hia, set_getElem_self_eq l i hi']
    · rw [List.perm_iff_count]
      intro x
      have hbj : j < (l.set i b).length := by simpa using hj'
      rw [List.count_set a x (l.set i b) j hbj, List.count_set b x l i hi']
      have hgj : (l.set i b)[j] = b := by
        rw [List.getElem_set_ne hij]
        exact hjb
      have hax : (if (a == x) = true then 1 else 0) ≤ List.count x l := by
        by_cases hx : a = x
        · subst hx
          have hbeq : (a == a) = true := by simp
          rw [if_pos hbeq]
          exact List.count_pos_iff.mpr (hia ▸ List.getElem_mem hi')
        · rw [if_neg (by simp [hx])]
          exact Nat.zero_le _
      have hlix : l[i] = a := hia
      rw [hgj, hlix]
      split_ifs at hax ⊢ <;> omega
  next => exact .refl _

theorem lswap_getElem?_of_ne (l : List α) {i j m : Nat} (him : m ≠ i) (hjm : m ≠ j) :
    (lswap l i j)[m]? = l[m]? := by
  unfold lswap
  split
  next a b hi hj =>
    rw [List.getElem?_set_ne (fun hh => hjm hh.symm), List.getElem?_set_ne (fun hh => him hh.symm)]
  next => rfl

theorem lswap_getElem?_right (l : List α) {i j : Nat} (hi : i < l.length) (hj : j < l.length) :
    (lswap l i j)[j]? = l[i]? := by
  unfold lswap
  rw [List.getElem?_eq_getElem hi, List.getElem?_eq_getElem hj]
  have hj2 : j < (l.set i l[j]).length := by simpa using hj
  rw [List.getElem?_set_self hj2]

theorem downAux_perm (less : α → α → Bool) (fuel : Nat) (l : List α) (i n : Nat) :
    (downAux less fuel l i n).1.Perm l := by
  induction fuel generalizing l i with
  | zero => exact .refl _
  | succ fuel ih =>
    simp only [downAux]
    split
    · split <;> split <;>
        first
        | exact (ih _ _).trans (lswap_perm _ _ _)
        | exact .refl _
    · exact .refl _

theorem downAux_getElem?_ge (less : α → α → Bool) (fuel : Nat) (l : List α) (i n m : Nat)
    (hm : n ≤ m) : (downAux less fuel l i n).1[m]? = l[m]? := by
  induction fuel generalizing l i with
  | zero => rfl
  | succ fuel ih =>
    simp only [downAux]
    split
    next hj1 =>
      split
      next hcond =>
        obtain ⟨hc2, _⟩ := hcond
        split
        next hless =>
          rw [ih]
          apply lswap_getElem?_of_ne <;> omega
        next => rfl
      next hcond =>
        split
        next hless =>
          rw [ih]
          apply lswap_getElem?_of_ne <;> omega
        next => rfl
    next => rfl

theorem upAux_perm (less : α → α → Bool) (fuel : Nat) (l : List α) (j : Nat) :
    (upAux less fuel l j).Perm l := by
  induction fuel generalizing l j with
  | zero => exact .refl _
  | succ fuel ih =>
    simp only [upAux]
    split
    · exact .refl _
    · split
      · exact (ih _ _).trans (lswap_perm _ _ _)
      · exact .refl _

theorem upAux_getElem?_gt (less : α → α → Bool) (fuel : Nat) (l : List α) (j m : Nat)
    (hm : j < m) : (upAux less fuel l j)[m]? = l[m]? := by
  induction fuel generalizing l j with
  | zero => rfl
  | succ fuel ih =>
    simp only [upAux]
    split
    · rfl
    · split
      next hne hless =>
        rw [ih _ _ (by omega)]
        apply lswap_getElem?_of_ne <;> omega
      next => rfl

theorem heapPush_perm (less : α → α → Bool) (l : List α) (x : α) :
    (heapPush less l x).Perm (x :: l) :=
  (upAux_perm less (l.length + 1) (l ++ [x]) l.length).trans
    (List.perm_append_singleton x l)

theorem heapFix_perm (less : α → α → Bool) (l : List α) (i : Nat) :
    (heapFix less l i).Perm l := by
  simp only [heapFix]
  split
  · exact downAux_perm _ _ _ _ _
  · exact (upAux_perm _ _ _ _).trans (downAux_perm _ _ _ _ _)

theorem heapPop_spec (less : α → α → Bool) {l : List α} (hne : l ≠ []) :
    ∃ x, l[0]? = some x ∧
      heapPop less l = (some x, (heapPop less l).2) ∧
      l.Perm (x :: (heapPop less l).2) := by
  have hlen : 0 < l.length := List.length_pos.mpr hne
  have hn : l.length - 1 < l.length := by omega
  refine ⟨l[0], List.getElem?_eq_getElem hlen, ?_⟩
  have hempty : l.isEmpty = false := by
    cases l with
    | nil => exact absurd rfl hne
    | cons a t => rfl
  set n := l.length - 1 with hn_def
  set l1 := lswap l 0 n with hl1
  set l2 := (downAux less l1.length l1 0 n).1 with hl2
  have hperm2 : l2.Perm l := (downAux_perm less l1.length l1 0 n).trans (lswap_perm l 0 n)
  have hlen2 : l2.length = l.length := hperm2.length_eq
  have hl2n : l2[n]? = some l[0] := by
    rw [hl2, downAux_getElem?_ge less l1.length l1 0 n n (le_refl n), hl1,
      lswap_getElem?_right l hlen hn, List.getElem?_eq_getElem hlen]
  have hlast : l2.getLast? = some l[0] := by
    rw [List.getLast?_eq_getElem?, hlen2, ← hn_def, hl2n]
  have hpop : heapPop less l = (l2.getLast?, l2.dropLast) := by
    rw [heapPop, hempty]
    simp only [Bool.false_eq_true, if_false]
  have hsplit : l2.dropLast ++ [l[0]] = l2 := List.dropLast_append_getLast? _ hlast
  constructor
  · rw [hpop, hlast]
  · have : l.Perm (l2.dropLast ++ [l[0]]) := by
      rw [hsplit]
      exact hperm2.symm
    have hfinal : l.Perm (l[0] :: l2.dropLast) :=
      this.trans (List.perm_append_singleton _ _)
    rw [hpop]
    exact hfinal

theorem heapRemove_spec (less : α → α → Bool) {l : List α} {i : Nat} (hi : i < l.length) :
    ∃ x, l[i]? = some x ∧ l.Perm (x :: heapRemove less l i) := by
  refine ⟨l[i], List.getElem?_eq_getElem hi, ?_⟩
  rw [heapRemove]
  by_cases hieq : i = l.length - 1
  · rw [if_pos hieq]
    have hne : l ≠ [] := by
      intro hl
      rw [hl] at hi
      simp at hi
    have hlast : l.getLast? = some l[i] := by
      rw [List.getLast?_eq_getElem?, ← hieq, List.getElem?_eq_getElem hi]
    have hsplit : l.dropLast ++ [l[i]] = l := List.dropLast_append_getLast? _ hlast
    have h1 : l.Perm (l.dropLast ++ [l[i]]) := by rw [hsplit]
    exact h1.trans (List.perm_append_singleton _ _)
  · rw [if_neg hieq]
    have hn : l.length - 1 < l.length := by omega
    have hilt : i < l.length - 1 := by omega
    set n := l.length - 1 with hn_def
    set l1 := lswap l i n with hl1
    have hperm1 : l1.Perm l := lswap_perm l i n
    have hl1n : l1[n]? = some l[i] := by
      rw [hl1, lswap_getElem?_right l hi hn, List.getElem?_eq_getElem hi]
    set p := downAux less l1.length l1 i n with hp
    set l3 := if i < p.2 then p.1 else upAux less l1.length p.1 i with hl3
    have hperm3 : l3.Perm l := by
      rw [hl3]
      split
      · exact (downAux_perm _ _ _ _ _).trans hperm1
      · exact ((upAux_perm _ _ _ _).trans (downAux_perm _ _ _ _ _)).trans hperm1
    have hl3n : l3[n]? = some l[i] := by
      rw [hl3]
      split
      · rw [hp, downAux_getElem?_ge less l1.length l1 i n n (le_refl n)]
        exact hl1n
      · rw [upAux_getElem?_gt less l1.length p.1 i n hilt, hp,
          downAux_getElem?_ge less l1.length l1 i n n (le_refl n)]
        exact hl1n
    have hlen3 : l3.length = l.length := hperm3.length_eq
    have hlast : l3.getLast? = some l[i] := by
      rw [List.getLast?_eq_getElem?, hlen3, ← hn_def, hl3n]
    have hsplit : l3.dropLast ++ [l[i]] = l3 := List.dropLast_append_getLast? _ hlast
    have : l.Perm (l3.dropLast ++ [l[i]]) := by
      rw [hsplit]
      exact hperm3.symm
    exact this.trans (List.perm_append_singleton _ _)

/-!
The next block establishes that the transcribed `container/heap` algorithms
re-establish the heap invariant, assuming the comparison behaves as a strict
weak order on the elements present.
-/

theorem lswap_getElem?_left (l : List α) {i j : Nat} (hi : i < l.length) (hj : j < l.length)
    (hij : i ≠ j) : (lswap l i j)[i]? = l[j]? := by
  unfold lswap
  rw [List.getElem?_eq_getElem hi, List.getElem?_eq_getElem hj]
  rw [List.getElem?_set_ne hij.symm]
  have hi2 : i < l.length := hi
  rw [List.getElem?_set_self hi2]


theorem getElem?_append_lt {l1 l2 : List α} {m : Nat} (h : m < l1.length) :
    (l1 ++ l2)[m]? = l1[m]? := by
  rw [List.getElem?_append]
  rw [if_pos h]

theorem getElem?_dropLast (l : List α) (m : Nat) (h : m < l.length - 1) :
    l.dropLast[m]? = l[m]? := by
  rw [List.dropLast_eq_take, List.getElem?_take]
  rw [if_pos h]


theorem SWOOn.perm {less : α → α → Bool} {l l' : List α} (hp : l.Perm l')
    (h : SWOOn less l) : SWOOn less l' := by
  obtain ⟨h1, h2, h3⟩ := h
  refine ⟨?_, ?_, ?_⟩
  · intro a ha
    exact h1 a (hp.mem_iff.mpr ha)
  · intro a b c ha hb hc
    exact h2 a b c (hp.mem_iff.mpr ha) (hp.mem_iff.mpr hb) (hp.mem_iff.mpr hc)
  · intro a b c ha hb hc
    exact h3 a b c (hp.mem_iff.mpr ha) (hp.mem_iff.mpr hb) (hp.mem_iff.mpr hc)

theorem SWOOn.asym {less : α → α → Bool} {l : List α} (h : SWOOn less l)
    {a b : α} (ha : a ∈ l) (hb : b ∈ l) (hab : less a b = true) : less b a = false := by
  by_contra hcon
  have hba : less b a = true := by
    cases hx : less b a with
    | true => rfl
    | false => exact absurd hx hcon
  have := h.2.1 a b a ha hb ha hab hba
  rw [h.1 a ha] at this
  exact Bool.noConfusion this

theorem downAux_i_mono (less : α → α → Bool) (fuel : Nat) (l : List α) (i n : Nat) :
    i ≤ (downAux less fuel l i n).2 := by
  induction fuel generalizing l i with
  | zero => exact le_refl i
  | succ fuel ih =>
    simp only [downAux]
    split
    · split
      next hcond =>
        split
        · exact le_trans (by omega) (ih _ _)
        · exact le_refl i
      next hcond =>
        split
        · exact le_trans (by omega) (ih _ _)
        · exact le_refl i
    · exact le_refl i

theorem lessAt_eq (less : α → α → Bool) (l : List α) {m p : Nat}
    (hm : m < l.length) (hp : p < l.length) :
    lessAt less l m p = less l[m] l[p] := by
  unfold lessAt
  rw [List.getElem?_eq_getElem hm, List.getElem?_eq_getElem hp]

theorem lessAt_congr {less : α → α → Bool} {l l' : List α} {m p m' p' : Nat}
    (hm : l'[m]? = l[m']?) (hp : l'[p]? = l[p']?) :
    lessAt less l' m p = lessAt less l m' p' := by
  unfold lessAt
  rw [hm, hp]

theorem downAux_heap (less : α → α → Bool) (fuel : Nat) (l : List α) (i n : Nat)
    (hswo : SWOOn less l) (hn : n ≤ l.length) (hi : i < n) (hfuel : n ≤ fuel + i)
    (hpre : ∀ m, m < n → 0 < m → m ≠ i → (m - 1) / 2 ≠ i →
      lessAt less l m ((m - 1) / 2) = false)
    (hbridge : 0 < i → ∀ c, c < n → (c - 1) / 2 = i →
      lessAt less l c ((i - 1) / 2) = false) :
    (i < (downAux less fuel l i n).2 →
      ∀ m, m < n → 0 < m → lessAt less (downAux less fuel l i n).1 m ((m - 1) / 2) = false) ∧
    ((downAux less fuel l i n).2 = i →
      (downAux less fuel l i n).1 = l ∧
      ∀ c, c < n → 0 < c → (c - 1) / 2 = i → lessAt less l c ((c - 1) / 2) = false) := by
  induction fuel generalizing l i with
  | zero => exact absurd hfuel (by omega)
  | succ fuel ih =>
    simp only [downAux]
    by_cases hj1 : 2 * i + 1 < n
    · rw [if_pos hj1]
      have hlen_i : i < l.length := lt_of_lt_of_le hi hn
      obtain ⟨j, hjval, hjn, hji, hpj, hmin⟩ :
          ∃ j, ((if 2 * i + 2 < n ∧ lessAt less l (2 * i + 2) (2 * i + 1) then 2 * i + 2
                 else 2 * i + 1) = j) ∧ j < n ∧ i < j ∧ (j - 1) / 2 = i ∧
            (∀ s, s < n → 0 < s → (s - 1) / 2 = i → s ≠ j → lessAt less l s j = false) := by
        by_cases hcond : 2 * i + 2 < n ∧ lessAt less l (2 * i + 2) (2 * i + 1) = true
        · refine ⟨2 * i + 2, by rw [if_pos hcond], hcond.1, by omega, by omega, ?_⟩
          intro s hs hs0 hps hsj
          have hseq : s = 2 * i + 1 := by omega
          subst hseq
          have hc2 : lessAt less l (2 * i + 2) (2 * i + 1) = true := hcond.2
          have hb1 : 2 * i + 1 < l.length := by omega
          have hb2 : 2 * i + 2 < l.length := by omega
          rw [lessAt_eq less l hb2 hb1] at hc2
          rw [lessAt_eq less l hb1 hb2]
          exact hswo.asym (List.getElem_mem hb2) (List.getElem_mem hb1) hc2
        · refine ⟨2 * i + 1, by rw [if_neg hcond], hj1, by omega, by omega, ?_⟩
          intro s hs hs0 hps hsj
          have hseq : s = 2 * i + 2 := by omega
          subst hseq
          cases hc2 : lessAt less l (2 * i + 2) (2 * i + 1) with
          | false => rfl
          | true => exact absurd ⟨hs, hc2⟩ hcond
      rw [hjval]
      have hlen_j : j < l.length := lt_of_lt_of_le hjn hn
      have hl1_i : (lswap l i j)[i]? = l[j]? :=
        lswap_getElem?_left l hlen_i hlen_j (by omega)
      have hl1_j : (lswap l i j)[j]? = l[i]? :=
        lswap_getElem?_right l hlen_i hlen_j
      cases hswap : lessAt less l j i with
      | false =>
        rw [if_neg Bool.false_ne_true]
        constructor
        · intro hcon
          exact absurd hcon (lt_irrefl i)
        · intro _
          refine ⟨rfl, ?_⟩
          intro c hc hc0 hpc
          rw [hpc]
          by_cases hcj : c = j
          · subst hcj
            exact hswap
          · have hcb : c < l.length := lt_of_lt_of_le hc hn
            have h1 := hmin c hc hc0 hpc hcj
            rw [lessAt_eq less l hcb hlen_j] at h1
            rw [lessAt_eq less l hlen_j hlen_i] at hswap
            rw [lessAt_eq less l hcb hlen_i]
            exact hswo.2.2 _ _ _ (List.getElem_mem hcb) (List.getElem_mem hlen_j)
              (List.getElem_mem hlen_i) h1 hswap
      | true =>
        rw [if_pos rfl]
        have hperm1 : (lswap l i j).Perm l := lswap_perm l i j
        have hswo1 : SWOOn less (lswap l i j) := SWOOn.perm hperm1.symm hswo
        have hn1 : n ≤ (lswap l i j).length := by rw [hperm1.length_eq]; exact hn
        have hfuel1 : n ≤ fuel + j := by omega
        have hpre1 : ∀ m, m < n → 0 < m → m ≠ j → (m - 1) / 2 ≠ j →
            lessAt less (lswap l i j) m ((m - 1) / 2) = false := by
          intro m hm hm0 hmj hpmj
          by_cases hmi : m = i
          · subst hmi
            have hp_ne_i : (m - 1) / 2 ≠ m := by omega
            have hp_ne_j : (m - 1) / 2 ≠ j := by omega
            have hp_cong : (lswap l m j)[(m - 1) / 2]? = l[(m - 1) / 2]? :=
              lswap_getElem?_of_ne l hp_ne_i hp_ne_j
            rw [lessAt_congr hl1_i hp_cong]
            exact hbridge hm0 j hjn hpj
          · by_cases hpm : (m - 1) / 2 = i
            · rw [hpm]
              have hm_cong : (lswap l i j)[m]? = l[m]? :=
                lswap_getElem?_of_ne l hmi hmj
              rw [lessAt_congr hm_cong hl1_i]
              exact hmin m hm hm0 hpm hmj
            · have hm_cong : (lswap l i j)[m]? = l[m]? :=
                lswap_getElem?_of_ne l hmi hmj
              have hp_cong : (lswap l i j)[(m - 1) / 2]? = l[(m - 1) / 2]? :=
                lswap_getElem?_of_ne l hpm hpmj
              rw [lessAt_congr hm_cong hp_cong]
              exact hpre m hm hm0 hmi hpm
        have hbridge1 : 0 < j → ∀ c, c < n → (c - 1) / 2 = j →
            lessAt less (lswap l i j) c ((j - 1) / 2) = false := by
          intro _ c hc hpc
          rw [hpj]
          have hc_ne_i : c ≠ i := by omega
          have hc_ne_j : c ≠ j := by omega
          have hc_cong : (lswap l i j)[c]? = l[c]? :=
            lswap_getElem?_of_ne l hc_ne_i hc_ne_j
          rw [lessAt_congr hc_cong hl1_i]
          have h1 := hpre c hc (by omega) hc_ne_i (by omega)
          rw [hpc] at h1
          exact h1
        have hrec := ih (lswap l i j) j hswo1 hn1 hjn hfuel1 hpre1 hbridge1
        have hmono : j ≤ (downAux less fuel (lswap l i j) j n).2 :=
          downAux_i_mono less fuel (lswap l i j) j n
        constructor
        · intro _ m hm hm0
          by_cases hmoved2 : j < (downAux less fuel (lswap l i j) j n).2
          · exact hrec.1 hmoved2 m hm hm0
          · have hr2 : (downAux less fuel (lswap l i j) j n).2 = j := by omega
            obtain ⟨hr1, hchild⟩ := hrec.2 hr2
            rw [hr1]
            by_cases hmj2 : m = j
            · subst hmj2
              rw [hpj]
              rw [lessAt_congr hl1_j hl1_i]
              rw [lessAt_eq less l hlen_i hlen_j]
              rw [lessAt_eq less l hlen_j hlen_i] at hswap
              exact hswo.asym (List.getElem_mem hlen_j) (List.getElem_mem hlen_i) hswap
            · by_cases hpmj2 : (m - 1) / 2 = j
              · exact hchild m hm hm0 hpmj2
              · exact hpre1 m hm hm0 hmj2 hpmj2
        · intro hcon
          exact absurd hcon (by omega)
    · rw [if_neg hj1]
      constructor
      · intro hcon
        exact absurd hcon (lt_irrefl i)
      · intro _
        refine ⟨rfl, ?_⟩
        intro c hc hc0 hpc
        exact absurd hpc (by omega)

theorem upAux_heap (less : α → α → Bool) (fuel : Nat) (l : List α) (j n : Nat)
    (hswo : SWOOn less l) (hn : n ≤ l.length) (hjn : j < n) (hfuel : j < fuel + 1)
    (hpre : ∀ m, m < n → 0 < m → m ≠ j → lessAt less l m ((m - 1) / 2) = false)
    (hbridge : 0 < j → ∀ c, c < n → (c - 1) / 2 = j →
      lessAt less l c ((j - 1) / 2) = false) :
    ∀ m, m < n → 0 < m → lessAt less (upAux less fuel l j) m ((m - 1) / 2) = false := by
  induction fuel generalizing l j with
  | zero =>
    have hj0 : j = 0 := by omega
    subst hj0
    intro m hm hm0
    exact hpre m hm hm0 (by omega)
  | succ fuel ih =>
    simp only [upAux]
    by_cases hje : (j - 1) / 2 = j
    · rw [if_pos hje]
      have hj0 : j = 0 := by omega
      intro m hm hm0
      exact hpre m hm hm0 (by omega)
    · rw [if_neg hje]
      have hj0 : 0 < j := by omega
      cases hswap : lessAt less l j ((j - 1) / 2) with
      | false =>
        rw [if_neg Bool.false_ne_true]
        intro m hm hm0
        by_cases hmj : m = j
        · subst hmj
          exact hswap
        · exact hpre m hm hm0 hmj
      | true =>
        rw [if_pos rfl]
        have hlen_j : j < l.length := lt_of_lt_of_le hjn hn
        have hlen_p : (j - 1) / 2 < l.length := by omega
        have hl1_p : (lswap l ((j - 1) / 2) j)[(j - 1) / 2]? = l[j]? :=
          lswap_getElem?_left l hlen_p hlen_j hje
        have hl1_j : (lswap l ((j - 1) / 2) j)[j]? = l[(j - 1) / 2]? :=
          lswap_getElem?_right l hlen_p hlen_j
        have hperm1 : (lswap l ((j - 1) / 2) j).Perm l := lswap_perm l ((j - 1) / 2) j
        have hswo1 : SWOOn less (lswap l ((j - 1) / 2) j) := SWOOn.perm hperm1.symm hswo
        have hn1 : n ≤ (lswap l ((j - 1) / 2) j).length := by
          rw [hperm1.length_eq]
          exact hn
        have hswapv : less l[j] l[(j - 1) / 2] = true := by
          rw [lessAt_eq less l hlen_j hlen_p] at hswap
          exact hswap
        have hpre1 : ∀ m, m < n → 0 < m → m ≠ (j - 1) / 2 →
            lessAt less (lswap l ((j - 1) / 2) j) m ((m - 1) / 2) = false := by
          intro m hm hm0 hmp
          have hmb : m < l.length := lt_of_lt_of_le hm hn
          by_cases hmj : m = j
          · subst hmj
            rw [lessAt_congr hl1_j hl1_p, lessAt_eq less l hlen_p hlen_j]
            exact hswo.asym (List.getElem_mem hlen_j) (List.getElem_mem hlen_p) hswapv
          · have hm_cong : (lswap l ((j - 1) / 2) j)[m]? = l[m]? :=
              lswap_getElem?_of_ne l hmp hmj
            by_cases hpmp : (m - 1) / 2 = (j - 1) / 2
            · rw [hpmp, lessAt_congr hm_cong hl1_p, lessAt_eq less l hmb hlen_j]
              have h1 := hpre m hm hm0 hmj
              rw [hpmp, lessAt_eq less l hmb hlen_p] at h1
              cases hx : less l[m] l[j] with
              | false => rfl
              | true =>
                have h2 := hswo.2.1 _ _ _ (List.getElem_mem hmb) (List.getElem_mem hlen_j)
                  (List.getElem_mem hlen_p) hx hswapv
                exact absurd (h1.symm.trans h2) Bool.false_ne_true
            · by_cases hpmj : (m - 1) / 2 = j
              · rw [hpmj, lessAt_congr hm_cong hl1_j]
                exact hbridge hj0 m hm hpmj
              · have hp_cong : (lswap l ((j - 1) / 2) j)[(m - 1) / 2]? = l[(m - 1) / 2]? :=
                  lswap_getElem?_of_ne l hpmp hpmj
                rw [lessAt_congr hm_cong hp_cong]
                exact hpre m hm hm0 hmj
        have hbridge1 : 0 < (j - 1) / 2 → ∀ c, c < n → (c - 1) / 2 = (j - 1) / 2 →
            lessAt less (lswap l ((j - 1) / 2) j) c (((j - 1) / 2 - 1) / 2) = false := by
          intro hp0 c hc hpc
          have hg_ne_p : ((j - 1) / 2 - 1) / 2 ≠ (j - 1) / 2 := by omega
          have hg_ne_j : ((j - 1) / 2 - 1) / 2 ≠ j := by omega
          have hg_cong : (lswap l ((j - 1) / 2) j)[((j - 1) / 2 - 1) / 2]? =
              l[((j - 1) / 2 - 1) / 2]? :=
            lswap_getElem?_of_ne l hg_ne_p hg_ne_j
          have hgb : ((j - 1) / 2 - 1) / 2 < l.length := by omega
          have hppre := hpre ((j - 1) / 2) (by omega) hp0 hje
          by_cases hcj : c = j
          · subst hcj
            rw [lessAt_congr hl1_j hg_cong]
            exact hppre
          · have hc_ne_p : c ≠ (j - 1) / 2 := by omega
            have hc_cong : (lswap l ((j - 1) / 2) j)[c]? = l[c]? :=
              lswap_getElem?_of_ne l hc_ne_p hcj
            rw [lessAt_congr hc_cong hg_cong]
            have hcb : c < l.length := lt_of_lt_of_le hc hn
            have h1 := hpre c hc (by omega) hcj
            rw [hpc, lessAt_eq less l hcb hlen_p] at h1
            rw [lessAt_eq less l hcb hgb]
            rw [lessAt_eq less l hlen_p hgb] at hppre
            exact hswo.2.2 _ _ _ (List.getElem_mem hcb) (List.getElem_mem hlen_p)
              (List.getElem_mem hgb) h1 hppre
        exact ih (lswap l ((j - 1) / 2) j) ((j - 1) / 2) hswo1 hn1 (by omega) (by omega)
          hpre1 hbridge1

theorem heapPush_heapOrdered (less : α → α → Bool) (l : List α) (x : α)
    (hswo : SWOOn less (l ++ [x])) (hord : HeapOrdered less l) :
    HeapOrdered less (heapPush less l x) := by
  intro m hm hm0
  have hlen : (heapPush less l x).length = l.length + 1 :=
    (upAux_perm less (l.length + 1) (l ++ [x]) l.length).length_eq.trans
      (by rw [List.length_append, List.length_singleton])
  rw [hlen] at hm
  refine upAux_heap less (l.length + 1) (l ++ [x]) l.length (l.length + 1) hswo
    (by rw [List.length_append, List.length_singleton]) (by omega) (by omega) ?_ ?_ m hm hm0
  · intro m' hm' hm0' hm'ne
    have hm'lt : m' < l.length := by omega
    have hp'lt : (m' - 1) / 2 < l.length := by omega
    rw [lessAt_congr (getElem?_append_lt hm'lt) (getElem?_append_lt hp'lt)]
    exact hord m' hm'lt hm0'
  · intro _ c hc hpc
    exact absurd hpc (by omega)

theorem heapFix_heapOrdered (less : α → α → Bool) (l : List α) (i : Nat)
    (hswo : SWOOn less l) (hi : i < l.length)
    (hpre : ∀ m, m < l.length → 0 < m → m ≠ i → (m - 1) / 2 ≠ i →
      lessAt less l m ((m - 1) / 2) = false)
    (hbridge : 0 < i → ∀ c, c < l.length → (c - 1) / 2 = i →
      lessAt less l c ((i - 1) / 2) = false) :
    HeapOrdered less (heapFix less l i) := by
  obtain ⟨hA, hB⟩ := downAux_heap less l.length l i l.length hswo (le_refl _) hi
    (by omega) hpre hbridge
  have hmono : i ≤ (downAux less l.length l i l.length).2 :=
    downAux_i_mono less l.length l i l.length
  unfold heapFix
  by_cases hmoved : i < (downAux less l.length l i l.length).2
  · rw [if_pos hmoved]
    intro m hm hm0
    have hlen : (downAux less l.length l i l.length).1.length = l.length :=
      (downAux_perm less l.length l i l.length).length_eq
    rw [hlen] at hm
    exact hA hmoved m hm hm0
  · rw [if_neg hmoved]
    have hr2 : (downAux less l.length l i l.length).2 = i := by omega
    obtain ⟨hr1, hchild⟩ := hB hr2
    rw [hr1]
    intro m hm hm0
    have hlen : (upAux less l.length l i).length = l.length :=
      (upAux_perm less l.length l i).length_eq
    rw [hlen] at hm
    refine upAux_heap less l.length l i l.length hswo (le_refl _) hi (by omega)
      ?_ hbridge m hm hm0
    intro m' hm' hm0' hm'ne
    by_cases hpm' : (m' - 1) / 2 = i
    · have := hchild m' hm' hm0' hpm'
      exact this
    · exact hpre m' hm' hm0' hm'ne hpm'

theorem heapPop_heapOrdered (less : α → α → Bool) (l : List α)
    (hswo : SWOOn less l) (hord : HeapOrdered less l) :
    HeapOrdered less (heapPop less l).2 := by
  unfold heapPop
  by_cases hemp : l.isEmpty
  · rw [if_pos hemp]
    intro m hm hm0
    exact absurd hm (by simp)
  · rw [if_neg hemp]
    have hlpos : 0 < l.length := by
      cases l with
      | nil => exact absurd rfl hemp
      | cons a t => simp
    simp only []
    have hperm1 : (lswap l 0 (l.length - 1)).Perm l := lswap_perm l 0 (l.length - 1)
    have hl1len : (lswap l 0 (l.length - 1)).length = l.length := hperm1.length_eq
    have hl2perm : (downAux less (lswap l 0 (l.length - 1)).length
        (lswap l 0 (l.length - 1)) 0 (l.length - 1)).1.Perm l :=
      (downAux_perm _ _ _ _ _).trans hperm1
    have hl2len : (downAux less (lswap l 0 (l.length - 1)).length
        (lswap l 0 (l.length - 1)) 0 (l.length - 1)).1.length = l.length := hl2perm.length_eq
    intro m hm hm0
    rw [List.length_dropLast, hl2len] at hm
    rw [lessAt_congr (getElem?_dropLast _ m (by omega)) (getElem?_dropLast _ ((m - 1) / 2) (by omega))]
    by_cases hn1 : l.length - 1 = 0
    · omega
    · have hswo1 : SWOOn less (lswap l 0 (l.length - 1)) := SWOOn.perm hperm1.symm hswo
      have hpre1 : ∀ m', m' < l.length - 1 → 0 < m' → m' ≠ 0 → (m' - 1) / 2 ≠ 0 →
          lessAt less (lswap l 0 (l.length - 1)) m' ((m' - 1) / 2) = false := by
        intro m' hm' hm0' hm'ne hpm'
        rw [lessAt_congr (lswap_getElem?_of_ne l hm'ne (by omega))
          (lswap_getElem?_of_ne l hpm' (by omega))]
        exact hord m' (by omega) hm0'
      obtain ⟨hA, hB⟩ := downAux_heap less (lswap l 0 (l.length - 1)).length
        (lswap l 0 (l.length - 1)) 0 (l.length - 1) hswo1 (by omega) (by omega) (by omega)
        hpre1 (by omega)
      have hmono : 0 ≤ (downAux less (lswap l 0 (l.length - 1)).length
          (lswap l 0 (l.length - 1)) 0 (l.length - 1)).2 := Nat.zero_le _
      by_cases hmoved : 0 < (downAux less (lswap l 0 (l.length - 1)).length
          (lswap l 0 (l.length - 1)) 0 (l.length - 1)).2
      · exact hA hmoved m hm hm0
      · have hr2 : (downAux less (lswap l 0 (l.length - 1)).length
            (lswap l 0 (l.length - 1)) 0 (l.length - 1)).2 = 0 := by omega
        obtain ⟨hr1, hchild⟩ := hB hr2
        rw [hr1]
        by_cases hpm : (m - 1) / 2 = 0
        · have := hchild m hm hm0 hpm
          rw [hpm] at this ⊢
          exact this
        · exact hpre1 m hm hm0 (by omega) hpm

theorem heapRemove_heapOrdered (less : α → α → Bool) (l : List α) (i : Nat)
    (hswo : SWOOn less l) (hi : i < l.length) (hord : HeapOrdered less l) :
    HeapOrdered less (heapRemove less l i) := by
  unfold heapRemove
  by_cases hin : i = l.length - 1
  · rw [if_pos hin]
    intro m hm hm0
    rw [List.length_dropLast] at hm
    rw [lessAt_congr (getElem?_dropLast _ m (by omega)) (getElem?_dropLast _ ((m - 1) / 2) (by omega))]
    exact hord m (by omega) hm0
  · rw [if_neg hin]
    simp only []
    have hin' : i < l.length - 1 := by omega
    have hperm1 : (lswap l i (l.length - 1)).Perm l := lswap_perm l i (l.length - 1)
    have hl1len : (lswap l i (l.length - 1)).length = l.length := hperm1.length_eq
    have hswo1 : SWOOn less (lswap l i (l.length - 1)) := SWOOn.perm hperm1.symm hswo
    have hpre1 : ∀ m, m < l.length - 1 → 0 < m → m ≠ i → (m - 1) / 2 ≠ i →
        lessAt less (lswap l i (l.length - 1)) m ((m - 1) / 2) = false := by
      intro m hm hm0 hmi hpmi
      rw [lessAt_congr (lswap_getElem?_of_ne l hmi (by omega))
        (lswap_getElem?_of_ne l hpmi (by omega))]
      exact hord m (by omega) hm0
    have hbridge1 : 0 < i → ∀ c, c < l.length - 1 → (c - 1) / 2 = i →
        lessAt less (lswap l i (l.length - 1)) c ((i - 1) / 2) = false := by
      intro hi0 c hc hpc
      have hcb : c < l.length := by omega
      have hpb : (i - 1) / 2 < l.length := by omega
      rw [lessAt_congr (lswap_getElem?_of_ne l (by omega) (by omega))
        (lswap_getElem?_of_ne l (show (i - 1) / 2 ≠ i by omega) (by omega))]
      have h1 := hord c hcb (by omega)
      rw [hpc] at h1
      have h2 := hord i hi hi0
      rw [lessAt_eq less l hcb hi] at h1
      rw [lessAt_eq less l hi hpb] at h2
      rw [lessAt_eq less l hcb hpb]
      exact hswo.2.2 _ _ _ (List.getElem_mem hcb) (List.getElem_mem hi)
        (List.getElem_mem hpb) h1 h2
    obtain ⟨hA, hB⟩ := downAux_heap less (lswap l i (l.length - 1)).length
      (lswap l i (l.length - 1)) i (l.length - 1) hswo1 (by omega) hin' (by omega)
      hpre1 hbridge1
    have hmono : i ≤ (downAux less (lswap l i (l.length - 1)).length
        (lswap l i (l.length - 1)) i (l.length - 1)).2 := downAux_i_mono _ _ _ _ _
    have hdlen : (downAux less (lswap l i (l.length - 1)).length
        (lswap l i (l.length - 1)) i (l.length - 1)).1.length = l.length :=
      ((downAux_perm _ _ _ _ _).trans hperm1).length_eq
    by_cases hmoved : i < (downAux less (lswap l i (l.length - 1)).length
        (lswap l i (l.length - 1)) i (l.length - 1)).2
    · rw [if_pos hmoved]
      intro m hm hm0
      rw [List.length_dropLast, hdlen] at hm
      rw [lessAt_congr (getElem?_dropLast _ m (by omega))
        (getElem?_dropLast _ ((m - 1) / 2) (by omega))]
      exact hA hmoved m hm hm0
    · rw [if_neg hmoved]
      have hr2 : (downAux less (lswap l i (l.length - 1)).length
          (lswap l i (l.length - 1)) i (l.length - 1)).2 = i := by omega
      obtain ⟨hr1, hchild⟩ := hB hr2
      rw [hr1]
      intro m hm hm0
      have hulen : (upAux less (lswap l i (l.length - 1)).length
          (lswap l i (l.length - 1)) i).length = l.length :=
        ((upAux_perm _ _ _ _).trans hperm1).length_eq
      rw [List.length_dropLast, hulen] at hm
      rw [lessAt_congr (getElem?_dropLast _ m (by omega))
        (getElem?_dropLast _ ((m - 1) / 2) (by omega))]
      refine upAux_heap less (lswap l i (l.length - 1)).length (lswap l i (l.length - 1))
        i (l.length - 1) hswo1 (by omega) hin' (by omega) ?_ hbridge1 m hm hm0
      intro m' hm' hm0' hm'ne
      by_cases hpm' : (m' - 1) / 2 = i
      · have := hchild m' hm' hm0' hpm'
        rw [hpm'] at this
        rw [hpm']
        exact this
      · exact hpre1 m' hm' hm0' hm'ne hpm'


end HeapLemmas

/-! ### Well-formedness invariant -/

namespace Cache

variable {K V : Type} [DecidableEq K]


theorem removeElement_fields (c : Cache K V) (k : K) :
    (c.removeElement k).policy = c.policy ∧ (c.removeElement k).capacity = c.capacity ∧
    (c.removeElement k).ttl = c.ttl := by
  unfold removeElement
  split <;> exact ⟨rfl, rfl, rfl⟩

theorem not_usesList_LFU : ¬ usesList Policy.PolicyLFU := by decide

theorem not_usesList_TTL : ¬ usesList Policy.PolicyTTL := by decide

theorem not_usesList_None : ¬ usesList Policy.PolicyNone := by decide

theorem not_usesHeap_LRU : ¬ usesHeap Policy.PolicyLRU := by decide

theorem not_usesHeap_FIFO : ¬ usesHeap Policy.PolicyFIFO := by decide

theorem not_usesHeap_None : ¬ usesHeap Policy.PolicyNone := by decide

theorem WF_removeElement {c : Cache K V} {k : K} (hwf : WF c) (hk : k ∈ keysOf c.items) :
    WF (c.removeElement k) ∧
    keysOf (c.removeElement k).items = (keysOf c.items).erase k := by
  obtain ⟨hnodup, hlist, hheap⟩ := hwf
  have herase : keysOf (assocErase c.items k) = (keysOf c.items).erase k := keysOf_assocErase
  have hnodup' : ((keysOf c.items).erase k).Nodup := hnodup.erase k
  cases hp : c.policy with
  | PolicyLRU =>
    have hl := hlist (by rw [hp]; exact Or.inl rfl)
    refine ⟨⟨?_, ?_, ?_⟩, ?_⟩ <;> simp only [removeElement, hp]
    · rw [herase]; exact hnodup'
    · intro _
      rw [herase]
      exact hl.erase k
    · intro hx
      exact absurd hx not_usesHeap_LRU
    · exact herase
  | PolicyFIFO =>
    have hl := hlist (by rw [hp]; exact Or.inr rfl)
    refine ⟨⟨?_, ?_, ?_⟩, ?_⟩ <;> simp only [removeElement, hp]
    · rw [herase]; exact hnodup'
    · intro _
      rw [herase]
      exact hl.erase k
    · intro hx
      exact absurd hx not_usesHeap_FIFO
    · exact herase
  | PolicyLFU =>
    have hq := hheap (by rw [hp]; exact Or.inl rfl)
    have hkpq : k ∈ c.pq := (hq.mem_iff).mpr hk
    have hidx : idxOf k c.pq < c.pq.length := idxOf_lt_length hkpq
    obtain ⟨x, hx1, hx2⟩ := heapRemove_spec (lessK c.policy c.items) hidx
    have hinj : x = k := by
      rw [getElem?_idxOf hkpq] at hx1
      exact (Option.some.inj hx1).symm
    rw [hinj] at hx2
    have hpq' : (heapRemove (lessK c.policy c.items) c.pq (idxOf k c.pq)).Perm
        ((keysOf c.items).erase k) := by
      have h1 : (k :: heapRemove (lessK c.policy c.items) c.pq (idxOf k c.pq)).Perm
          (keysOf c.items) := hx2.symm.trans hq
      have h2 := h1.erase k
      rwa [List.erase_cons_head] at h2
    refine ⟨⟨?_, ?_, ?_⟩, ?_⟩ <;> simp only [removeElement, hp]
    · rw [herase]; exact hnodup'
    · intro hx
      exact absurd hx not_usesList_LFU
    · intro _
      rw [herase]
      rw [hp] at hpq'
      exact hpq'
    · exact herase
  | PolicyTTL =>
    have hq := hheap (by rw [hp]; exact Or.inr rfl)
    have hkpq : k ∈ c.pq := (hq.mem_iff).mpr hk
    have hidx : idxOf k c.pq < c.pq.length := idxOf_lt_length hkpq
    obtain ⟨x, hx1, hx2⟩ := heapRemove_spec (lessK c.policy c.items) hidx
    have hinj : x = k := by
      rw [getElem?_idxOf hkpq] at hx1
      exact (Option.some.inj hx1).symm
    rw [hinj] at hx2
    have hpq' : (heapRemove (lessK c.policy c.items) c.pq (idxOf k c.pq)).Perm
        ((keysOf c.items).erase k) := by
      have h1 : (k :: heapRemove (lessK c.policy c.items) c.pq (idxOf k c.pq)).Perm
          (keysOf c.items) := hx2.symm.trans hq
      have h2 := h1.erase k
      rwa [List.erase_cons_head] at h2
    refine ⟨⟨?_, ?_, ?_⟩, ?_⟩ <;> simp only [removeElement, hp]
    · rw [herase]; exact hnodup'
    · intro hx
      exact absurd hx not_usesList_TTL
    · intro _
      rw [herase]
      rw [hp] at hpq'
      exact hpq'
    · exact herase
  | PolicyNone =>
    refine ⟨⟨?_, ?_, ?_⟩, ?_⟩ <;> simp only [removeElement, hp]
    · rw [herase]; exact hnodup'
    · intro hx
      exact absurd hx not_usesList_None
    · intro hx
      exact absurd hx not_usesHeap_None
    · exact herase

theorem mem_of_getLast?_eq {l : List K} {a : K} (h : l.getLast? = some a) : a ∈ l := by
  rw [List.getLast?_eq_getElem?] at h
  obtain ⟨hb, hbe⟩ := List.getElem?_eq_some.mp h
  exact hbe ▸ List.getElem_mem hb

theorem evict_policy (c : Cache K V) : (c.evict).policy = c.policy := by
  unfold evict
  split
  all_goals
    first
    | rfl
    | (split
       · exact (removeElement_fields c _).1
       · rfl)
    | (split
       · split <;> rfl
       · rfl)

theorem evict_capacity (c : Cache K V) : (c.evict).capacity = c.capacity := by
  unfold evict
  split
  all_goals
    first
    | rfl
    | (split
       · exact (removeElement_fields c _).2.1
       · rfl)
    | (split
       · split <;> rfl
       · rfl)

theorem evict_ttl (c : Cache K V) : (c.evict).ttl = c.ttl := by
  unfold evict
  split
  all_goals
    first
    | rfl
    | (split
       · exact (removeElement_fields c _).2.2
       · rfl)
    | (split
       · split <;> rfl
       · rfl)

theorem keysOf_ne_nil {c : Cache K V} (hne : c.items ≠ []) : keysOf c.items ≠ [] := by
  intro h
  exact hne (List.map_eq_nil.mp h)

theorem evict_spec {c : Cache K V} (hwf : WF c) (hpol : c.policy ≠ .PolicyNone)
    (hne : c.items ≠ []) :
    ∃ k', k' ∈ keysOf c.items ∧
      keysOf (c.evict).items = (keysOf c.items).erase k' ∧ WF (c.evict) := by
  obtain ⟨hnodup, hlist, hheap⟩ := hwf
  have hkne : keysOf c.items ≠ [] := keysOf_ne_nil hne
  cases hp : c.policy with
  | PolicyNone => exact absurd hp hpol
  | PolicyLRU | PolicyFIFO =>
    have hl : c.evictList.Perm (keysOf c.items) := by
      apply hlist
      rw [hp]
      first
      | exact Or.inl rfl
      | exact Or.inr rfl
    have hlne : c.evictList ≠ [] := by
      intro h0
      have := hl.length_eq
      rw [h0] at this
      exact hkne (List.length_eq_zero.mp this.symm)
    obtain ⟨k', hk'⟩ : ∃ k', c.evictList.getLast? = some k' := by
      cases hg : c.evictList.getLast? with
      | none =>
        have := List.getLast?_isSome.mpr hlne
        rw [hg] at this
        exact absurd this (by simp)
      | some k' => exact ⟨k', rfl⟩
    have hmem : k' ∈ keysOf c.items := hl.mem_iff.mp (mem_of_getLast?_eq hk')
    have hev : c.evict = c.removeElement k' := by
      simp only [evict, hp, hk']
    obtain ⟨hwf', hkeys'⟩ := WF_removeElement ⟨hnodup, hlist, hheap⟩ hmem
    rw [hev]
    exact ⟨k', hmem, hkeys', hwf'⟩
  | PolicyLFU | PolicyTTL =>
    have hq : c.pq.Perm (keysOf c.items) := by
      apply hheap
      rw [hp]
      first
      | exact Or.inl rfl
      | exact Or.inr rfl
    have hqne : c.pq ≠ [] := by
      intro h0
      have := hq.length_eq
      rw [h0] at this
      exact hkne (List.length_eq_zero.mp this.symm)
    have hqlen : 0 < c.pq.length := List.length_pos.mpr hqne
    obtain ⟨x, hx0, hxeq, hxperm⟩ := heapPop_spec (lessK c.policy c.items) hqne
    have hmem : x ∈ keysOf c.items := by
      obtain ⟨hb, hbe⟩ := List.getElem?_eq_some.mp hx0
      exact hq.mem_iff.mp (hbe ▸ List.getElem_mem hb)
    have herase : keysOf (assocErase c.items x) = (keysOf c.items).erase x := keysOf_assocErase
    have hrest : (heapPop (lessK c.policy c.items) c.pq).2.Perm ((keysOf c.items).erase x) := by
      have h1 : (x :: (heapPop (lessK c.policy c.items) c.pq).2).Perm (keysOf c.items) :=
        hxperm.symm.trans hq
      have h2 := h1.erase x
      rwa [List.erase_cons_head] at h2
    obtain ⟨rest, hxeq2⟩ : ∃ rest, heapPop (lessK c.policy c.items) c.pq = (some x, rest) :=
      ⟨(heapPop (lessK c.policy c.items) c.pq).2, hxeq⟩
    have hrest2 : (heapPop (lessK c.policy c.items) c.pq).2 = rest := by rw [hxeq2]
    rw [hrest2] at hrest
    have hev : c.evict = { c with pq := rest, items := assocErase c.items x } := by
      rw [hp] at hxeq2
      simp only [evict, hp, if_pos hqlen, hxeq2]
    refine ⟨x, hmem, ?_, ?_⟩
    · rw [hev]
      exact herase
    · rw [hev]
      refine ⟨?_, ?_, ?_⟩
      · rw [herase]
        exact hnodup.erase x
      · intro hx
        rw [hp] at hx ⊢
        first
        | exact absurd hx not_usesList_LFU
        | exact absurd hx not_usesList_TTL
      · intro _
        rw [herase]
        exact hrest

theorem if_evict_policy (c : Cache K V) (cond : Prop) [Decidable cond] :
    (if cond then c.evict else c).policy = c.policy := by
  split
  · exact evict_policy c
  · rfl

theorem nodup_append_singleton {l : List K} {k : K} (hnodup : l.Nodup) (hk : k ∉ l) :
    (l ++ [k]).Nodup := by
  rw [List.nodup_append]
  exact ⟨hnodup, List.nodup_singleton _, by simpa using hk⟩

theorem Set_spec {c : Cache K V} (hwf : WF c) (now : Int) (k : K) (v : V) :
    WF (c.Set now k v) ∧
    ((k ∈ keysOf c.items → keysOf (c.Set now k v).items = keysOf c.items) ∧
     (k ∉ keysOf c.items →
       ((c.policy = .PolicyNone ∨ ¬(0 < c.capacity ∧ c.capacity ≤ (c.items.length : Int))) →
          keysOf (c.Set now k v).items = keysOf c.items ++ [k]) ∧
       (c.policy ≠ .PolicyNone → 0 < c.capacity → c.capacity ≤ (c.items.length : Int) →
          ∃ k', k' ∈ keysOf c.items ∧
            keysOf (c.Set now k v).items = ((keysOf c.items).erase k') ++ [k]))) := by
  obtain ⟨hnodup, hlist, hheap⟩ := hwf
  by_cases hpol : c.policy = .PolicyNone
  · -- PolicyNone branch: no bookkeeping.
    cases hfind : assocFind c.items k with
    | some e =>
      have hmem : k ∈ keysOf c.items := mem_keysOf_of_find_some hfind
      have hSet : c.Set now k v = { c with items := assocSet c.items k { e with value := v } } := by
        simp only [Set, if_pos hpol, hfind]
      have hSp : (c.Set now k v).policy = c.policy := by rw [hSet]
      have hSl : (c.Set now k v).evictList = c.evictList := by rw [hSet]
      have hSq : (c.Set now k v).pq = c.pq := by rw [hSet]
      have hkeys : keysOf (c.Set now k v).items = keysOf c.items := by
        rw [hSet]
        exact keysOf_assocSet_of_mem _ hmem
      refine ⟨⟨?_, ?_, ?_⟩, fun _ => hkeys, fun hx => absurd hmem hx⟩
      · rw [hkeys]; exact hnodup
      · intro hx
        rw [hSp] at hx
        rw [hSl, hkeys]
        exact hlist hx
      · intro hx
        rw [hSp] at hx
        rw [hSq, hkeys]
        exact hheap hx
    | none =>
      have hmem : k ∉ keysOf c.items := assocFind_eq_none_iff.mp hfind
      have hSet : c.Set now k v = { c with items := assocSet c.items k ⟨v, 0, 0, 0, 0⟩ } := by
        simp only [Set, if_pos hpol, hfind]
      have hSp : (c.Set now k v).policy = c.policy := by rw [hSet]
      have hkeys : keysOf (c.Set now k v).items = keysOf c.items ++ [k] := by
        rw [hSet]
        show keysOf (assocSet c.items k _) = _
        rw [assocSet_of_not_mem _ hmem]
        simp [keysOf]
      refine ⟨⟨?_, ?_, ?_⟩, fun hx => absurd hx hmem,
        fun _ => ⟨fun _ => hkeys, fun hne => absurd hpol hne⟩⟩
      · rw [hkeys]
        exact nodup_append_singleton hnodup hmem
      · intro hx
        rw [hSp, hpol] at hx
        exact absurd hx not_usesList_None
      · intro hx
        rw [hSp, hpol] at hx
        exact absurd hx not_usesHeap_None
  · -- non-None policies.
    cases hfind : assocFind c.items k with
    | some e =>
      have hmem : k ∈ keysOf c.items := mem_keysOf_of_find_some hfind
      have harm : keysOf (c.Set now k v).items = keysOf c.items ∧
          (c.Set now k v).policy = c.policy ∧
          ((c.Set now k v).evictList = c.evictList ∨
            (c.Set now k v).evictList = moveToFront c.evictList k) ∧
          ((c.Set now k v).pq = c.pq ∨ (c.Set now k v).pq.Perm c.pq) := by
        cases hp : c.policy with
        | PolicyLRU =>
          obtain ⟨items', hSet, hkeys'⟩ : ∃ items',
              c.Set now k v = { c with items := items', evictList := moveToFront c.evictList k } ∧
              keysOf items' = keysOf c.items := by
            exact ⟨_, by simp only [Set, if_neg hpol, hfind]; rw [hp],
              keysOf_assocSet_of_mem _ hmem⟩
          exact ⟨by rw [hSet]; exact hkeys', by rw [hSet]; exact hp, Or.inr (by rw [hSet]),
            Or.inl (by rw [hSet])⟩
        | PolicyLFU =>
          obtain ⟨items', hSet, hkeys'⟩ : ∃ items',
              c.Set now k v = { c with items := items', pq := heapFix (lessK c.policy items') c.pq (idxOf k c.pq) } ∧
              keysOf items' = keysOf c.items := by
            exact ⟨_, by simp only [Set, if_neg hpol, hfind]; rw [hp],
              keysOf_assocSet_of_mem _ hmem⟩
          exact ⟨by rw [hSet]; exact hkeys', by rw [hSet]; exact hp, Or.inl (by rw [hSet]),
            Or.inr (by rw [hSet]; exact heapFix_perm _ _ _)⟩
        | PolicyTTL =>
          obtain ⟨items', hSet, hkeys'⟩ : ∃ items',
              c.Set now k v = { c with items := items', pq := heapFix (lessK c.policy items') c.pq (idxOf k c.pq) } ∧
              keysOf items' = keysOf c.items := by
            exact ⟨_, by simp only [Set, if_neg hpol, hfind]; rw [hp],
              keysOf_assocSet_of_mem _ hmem⟩
          exact ⟨by rw [hSet]; exact hkeys', by rw [hSet]; exact hp, Or.inl (by rw [hSet]),
            Or.inr (by rw [hSet]; exact heapFix_perm _ _ _)⟩
        | PolicyFIFO =>
          obtain ⟨items', hSet, hkeys'⟩ : ∃ items',
              c.Set now k v = { c with items := items' } ∧
              keysOf items' = keysOf c.items := by
            exact ⟨_, by simp only [Set, if_neg hpol, hfind]; rw [hp],
              keysOf_assocSet_of_mem _ hmem⟩
          exact ⟨by rw [hSet]; exact hkeys', by rw [hSet]; exact hp, Or.inl (by rw [hSet]),
            Or.inl (by rw [hSet])⟩
        | PolicyNone => exact absurd hp hpol
      obtain ⟨hkeys, hdpol, hdlist, hdpq⟩ := harm
      refine ⟨⟨?_, ?_, ?_⟩, fun _ => hkeys, fun hx => absurd hmem hx⟩
      · rw [hkeys]; exact hnodup
      · intro hx
        rw [hdpol] at hx
        rw [hkeys]
        rcases hdlist with h | h
        · rw [h]; exact hlist hx
        · rw [h]
          have hl := hlist hx
          have hkel : k ∈ c.evictList := hl.mem_iff.mpr hmem
          exact (List.perm_cons_erase hkel).symm.trans hl
      · intro hx
        rw [hdpol] at hx
        rw [hkeys]
        rcases hdpq with h | h
        · rw [h]; exact hheap hx
        · exact h.trans (hheap hx)
    | none =>
      have hmem : k ∉ keysOf c.items := assocFind_eq_none_iff.mp hfind
      set cond := 0 < c.capacity ∧ c.capacity ≤ (c.items.length : Int) with hconddef
      have hc1 : ∃ c1 : Cache K V,
          (if cond then c.evict else c) = c1 ∧ c1.policy = c.policy ∧ WF c1 ∧
          k ∉ keysOf c1.items ∧
          ((¬ cond → keysOf c1.items = keysOf c.items) ∧
           (cond → ∃ k', k' ∈ keysOf c.items ∧
              keysOf c1.items = (keysOf c.items).erase k')) := by
        by_cases hcond : cond
        · have hlen : 0 < c.items.length := by
            obtain ⟨h1, h2⟩ := hcond
            omega
          have hne : c.items ≠ [] := by
            intro h0
            rw [h0] at hlen
            simp at hlen
          obtain ⟨k', hk'mem, hk'keys, hk'wf⟩ := evict_spec ⟨hnodup, hlist, hheap⟩ hpol hne
          refine ⟨c.evict, if_pos hcond, evict_policy c, hk'wf, ?_,
            fun hnc => absurd hcond hnc, fun _ => ⟨k', hk'mem, hk'keys⟩⟩
          rw [hk'keys]
          intro hx
          exact hmem (List.mem_of_mem_erase hx)
        · exact ⟨c, if_neg hcond, rfl, ⟨hnodup, hlist, hheap⟩, hmem,
            fun _ => rfl, fun hcc => absurd hcc hcond⟩
      obtain ⟨c1, hc1eq, hc1pol, ⟨hc1nodup, hc1list, hc1heap⟩, hc1fresh, hc1keysA, hc1keysB⟩ := hc1
      have hfreshkeys : ∀ ee : entry V,
          keysOf (assocSet c1.items k ee) = keysOf c1.items ++ [k] := by
        intro ee
        rw [assocSet_of_not_mem _ hc1fresh]
        simp [keysOf]
      have hins : keysOf (c.Set now k v).items = keysOf c1.items ++ [k] ∧
          (c.Set now k v).policy = c1.policy ∧
          (usesList c1.policy → (c.Set now k v).evictList = k :: c1.evictList) ∧
          (usesHeap c1.policy → (c.Set now k v).pq.Perm (k :: c1.pq)) := by
        cases hp1 : c1.policy with
        | PolicyLRU =>
          obtain ⟨items', hSet, hkeys'⟩ : ∃ items',
              c.Set now k v = { c1 with items := items', evictList := k :: c1.evictList } ∧
              keysOf items' = keysOf c1.items ++ [k] := by
            exact ⟨_, by simp only [Set, if_neg hpol, hfind]; simp only [← hconddef]; rw [hc1eq, hp1],
              hfreshkeys _⟩
          exact ⟨by rw [hSet]; exact hkeys', by rw [hSet]; exact hp1, fun _ => by rw [hSet],
            fun hx => absurd hx not_usesHeap_LRU⟩
        | PolicyFIFO =>
          obtain ⟨items', hSet, hkeys'⟩ : ∃ items',
              c.Set now k v = { c1 with items := items', evictList := k :: c1.evictList } ∧
              keysOf items' = keysOf c1.items ++ [k] := by
            exact ⟨_, by simp only [Set, if_neg hpol, hfind]; simp only [← hconddef]; rw [hc1eq, hp1],
              hfreshkeys _⟩
          exact ⟨by rw [hSet]; exact hkeys', by rw [hSet]; exact hp1, fun _ => by rw [hSet],
            fun hx => absurd hx not_usesHeap_FIFO⟩
        | PolicyLFU =>
          obtain ⟨items', hSet, hkeys'⟩ : ∃ items',
              c.Set now k v = { c1 with items := items', pq := heapPush (lessK c1.policy items') c1.pq k } ∧
              keysOf items' = keysOf c1.items ++ [k] := by
            exact ⟨_, by simp only [Set, if_neg hpol, hfind]; simp only [← hconddef]; rw [hc1eq, hp1],
              hfreshkeys _⟩
          exact ⟨by rw [hSet]; exact hkeys', by rw [hSet]; exact hp1,
            fun hx => absurd hx not_usesList_LFU,
            fun _ => by rw [hSet]; exact heapPush_perm _ _ _⟩
        | PolicyTTL =>
          obtain ⟨items', hSet, hkeys'⟩ : ∃ items',
              c.Set now k v = { c1 with items := items', pq := heapPush (lessK c1.policy items') c1.pq k } ∧
              keysOf items' = keysOf c1.items ++ [k] := by
            exact ⟨_, by simp only [Set, if_neg hpol, hfind]; simp only [← hconddef]; rw [hc1eq, hp1],
              hfreshkeys _⟩
          exact ⟨by rw [hSet]; exact hkeys', by rw [hSet]; exact hp1,
            fun hx => absurd hx not_usesList_TTL,
            fun _ => by rw [hSet]; exact heapPush_perm _ _ _⟩
        | PolicyNone => exact absurd (hc1pol.symm.trans hp1) hpol
      obtain ⟨hdkeys, hdpol, hdlistY, hdpqY⟩ := hins
      have hdwf : WF (c.Set now k v) := by
        refine ⟨?_, ?_, ?_⟩
        · rw [hdkeys]
          exact nodup_append_singleton hc1nodup hc1fresh
        · intro hx
          rw [hdpol] at hx
          rw [hdlistY hx, hdkeys]
          have h1 : c1.evictList.Perm (keysOf c1.items) := hc1list hx
          exact (h1.cons k).trans (List.perm_append_singleton k (keysOf c1.items)).symm
        · intro hx
          rw [hdpol] at hx
          rw [hdkeys]
          have h1 : c1.pq.Perm (keysOf c1.items) := hc1heap hx
          exact (hdpqY hx).trans
            ((h1.cons k).trans (List.perm_append_singleton k (keysOf c1.items)).symm)
      refine ⟨hdwf, fun hx => absurd hx hmem, fun _ => ⟨?_, ?_⟩⟩
      · intro hor
        rcases hor with h | h
        · exact absurd h hpol
        · rw [hdkeys, hc1keysA (by rw [hconddef] at h ⊢; exact h)]
      · intro _ hcap hlen
        obtain ⟨k', hk'mem, hk'keys⟩ := hc1keysB ⟨hcap, hlen⟩
        exact ⟨k', hk'mem, by rw [hdkeys, hk'keys]⟩

theorem Get_policyNone {c : Cache K V} (now : Int) (k : K) (hpol : c.policy = .PolicyNone) :
    c.Get now k = (c, (assocFind c.items k).map (fun e => e.value)) := by
  simp only [Get, if_pos hpol]

theorem Get_miss {c : Cache K V} (now : Int) (k : K)
    (hfind : assocFind c.items k = none) : c.Get now k = (c, none) := by
  by_cases hpol : c.policy = .PolicyNone
  · rw [Get_policyNone now k hpol, hfind]
    rfl
  · simp only [Get, if_neg hpol, hfind]

theorem Get_expired {c : Cache K V} {now : Int} {k : K} {e : entry V}
    (hpol : c.policy ≠ .PolicyNone) (hfind : assocFind c.items k = some e)
    (hexp : 0 < e.expiration ∧ e.expiration < now) :
    c.Get now k = (c.removeElement k, none) := by
  simp only [Get, if_neg hpol, hfind, if_pos hexp]

theorem Get_hit {c : Cache K V} {now : Int} {k : K} {e : entry V}
    (hpol : c.policy ≠ .PolicyNone) (hfind : assocFind c.items k = some e)
    (hnexp : ¬(0 < e.expiration ∧ e.expiration < now)) :
    (c.Get now k).2 = some e.value ∧
    assocFind (c.Get now k).1.items k =
      some { e with accessTime := now, frequency := e.frequency + 1 } ∧
    (∀ k', k' ≠ k → assocFind (c.Get now k).1.items k' = assocFind c.items k') ∧
    keysOf (c.Get now k).1.items = keysOf c.items ∧
    (c.Get now k).1.policy = c.policy ∧
    (c.Get now k).1.capacity = c.capacity ∧
    (c.Get now k).1.ttl = c.ttl ∧
    ((c.Get now k).1.evictList = c.evictList ∨
      (c.Get now k).1.evictList = moveToFront c.evictList k) ∧
    ((c.Get now k).1.pq = c.pq ∨ (c.Get now k).1.pq.Perm c.pq) ∧
    (c.policy = .PolicyLRU → (c.Get now k).1.evictList = moveToFront c.evictList k) := by
  have hmem : k ∈ keysOf c.items := mem_keysOf_of_find_some hfind
  cases hp : c.policy with
  | PolicyNone => exact absurd hp hpol
  | PolicyLRU =>
    obtain ⟨items', hSet, hitems⟩ : ∃ items',
        c.Get now k = ({ c with items := items', evictList := moveToFront c.evictList k },
          some e.value) ∧
        items' = assocSet c.items k { e with accessTime := now, frequency := e.frequency + 1 } :=
      ⟨_, by simp only [Get, if_neg hpol, hfind, if_neg hnexp]; rw [hp], rfl⟩
    refine ⟨by rw [hSet], ?_, ?_, ?_, by rw [hSet]; exact hp,
      by rw [hSet], by rw [hSet], Or.inr (by rw [hSet]), Or.inl (by rw [hSet]),
      fun _ => by rw [hSet]⟩
    · rw [hSet]
      show assocFind items' k = _
      rw [hitems]
      exact assocFind_assocSet_self _ _
    · intro k' hk'
      rw [hSet]
      show assocFind items' k' = _
      rw [hitems]
      exact assocFind_assocSet_ne _ hk'
    · rw [hSet]
      show keysOf items' = _
      rw [hitems]
      exact keysOf_assocSet_of_mem _ hmem
  | PolicyFIFO =>
    obtain ⟨items', hSet, hitems⟩ : ∃ items',
        c.Get now k = ({ c with items := items' }, some e.value) ∧
        items' = assocSet c.items k { e with accessTime := now, frequency := e.frequency + 1 } :=
      ⟨_, by simp only [Get, if_neg hpol, hfind, if_neg hnexp]; rw [hp], rfl⟩
    refine ⟨by rw [hSet], ?_, ?_, ?_, by rw [hSet]; exact hp,
      by rw [hSet], by rw [hSet], Or.inl (by rw [hSet]), Or.inl (by rw [hSet]),
      fun hc => absurd hc (by decide)⟩
    · rw [hSet]
      show assocFind items' k = _
      rw [hitems]
      exact assocFind_assocSet_self _ _
    · intro k' hk'
      rw [hSet]
      show assocFind items' k' = _
      rw [hitems]
      exact assocFind_assocSet_ne _ hk'
    · rw [hSet]
      show keysOf items' = _
      rw [hitems]
      exact keysOf_assocSet_of_mem _ hmem
  | PolicyLFU =>
    obtain ⟨items', hSet, hitems⟩ : ∃ items',
        c.Get now k = ({ c with items := items', pq := heapFix (lessK c.policy items') c.pq (idxOf k c.pq) }, some e.value) ∧
        items' = assocSet c.items k { e with accessTime := now, frequency := e.frequency + 1 } :=
      ⟨_, by simp only [Get, if_neg hpol, hfind, if_neg hnexp]; rw [hp], rfl⟩
    refine ⟨by rw [hSet], ?_, ?_, ?_, by rw [hSet]; exact hp,
      by rw [hSet], by rw [hSet], Or.inl (by rw [hSet]),
      Or.inr (by rw [hSet]; exact heapFix_perm _ _ _),
      fun hc => absurd hc (by decide)⟩
    · rw [hSet]
      show assocFind items' k = _
      rw [hitems]
      exact assocFind_assocSet_self _ _
    · intro k' hk'
      rw [hSet]
      show assocFind items' k' = _
      rw [hitems]
      exact assocFind_assocSet_ne _ hk'
    · rw [hSet]
      show keysOf items' = _
      rw [hitems]
      exact keysOf_assocSet_of_mem _ hmem
  | PolicyTTL =>
    obtain ⟨items', hSet, hitems⟩ : ∃ items',
        c.Get now k = ({ c with items := items', pq := heapFix (lessK c.policy items') c.pq (idxOf k c.pq) }, some e.value) ∧
        items' = assocSet c.items k { e with accessTime := now, frequency := e.frequency + 1 } :=
      ⟨_, by simp only [Get, if_neg hpol, hfind, if_neg hnexp]; rw [hp], rfl⟩
    refine ⟨by rw [hSet], ?_, ?_, ?_, by rw [hSet]; exact hp,
      by rw [hSet], by rw [hSet], Or.inl (by rw [hSet]),
      Or.inr (by rw [hSet]; exact heapFix_perm _ _ _),
      fun hc => absurd hc (by decide)⟩
    · rw [hSet]
      show assocFind items' k = _
      rw [hitems]
      exact assocFind_assocSet_self _ _
    · intro k' hk'
      rw [hSet]
      show assocFind items' k' = _
      rw [hitems]
      exact assocFind_assocSet_ne _ hk'
    · rw [hSet]
      show keysOf items' = _
      rw [hitems]
      exact keysOf_assocSet_of_mem _ hmem

theorem WF_Get {c : Cache K V} (hwf : WF c) (now : Int) (k : K) :
    WF (c.Get now k).1 ∧
    (keysOf (c.Get now k).1.items = keysOf c.items ∨
      keysOf (c.Get now k).1.items = (keysOf c.items).erase k) ∧
    (c.Get now k).1.policy = c.policy ∧
    (c.Get now k).1.capacity = c.capacity ∧
    (c.Get now k).1.ttl = c.ttl := by
  by_cases hpol : c.policy = .PolicyNone
  · rw [Get_policyNone now k hpol]
    exact ⟨hwf, Or.inl rfl, rfl, rfl, rfl⟩
  · cases hfind : assocFind c.items k with
    | none =>
      rw [Get_miss now k hfind]
      exact ⟨hwf, Or.inl rfl, rfl, rfl, rfl⟩
    | some e =>
      by_cases hexp : 0 < e.expiration ∧ e.expiration < now
      · rw [Get_expired hpol hfind hexp]
        have hmem : k ∈ keysOf c.items := mem_keysOf_of_find_some hfind
        obtain ⟨hwf', hkeys'⟩ := WF_removeElement hwf hmem
        obtain ⟨h1, h2, h3⟩ := removeElement_fields c k
        exact ⟨hwf', Or.inr hkeys', h1, h2, h3⟩
      · obtain ⟨_, _, _, hkeys, hgpol, hgcap, hgttl, hglist, hgpq, _⟩ :=
          Get_hit hpol hfind hexp
        obtain ⟨hnodup, hlist, hheap⟩ := hwf
        have hmem : k ∈ keysOf c.items := mem_keysOf_of_find_some hfind
        refine ⟨⟨?_, ?_, ?_⟩, Or.inl hkeys, hgpol, hgcap, hgttl⟩
        · rw [hkeys]; exact hnodup
        · intro hx
          rw [hgpol] at hx
          rw [hkeys]
          rcases hglist with h | h
          · rw [h]; exact hlist hx
          · rw [h]
            have hl := hlist hx
            have hkel : k ∈ c.evictList := hl.mem_iff.mpr hmem
            exact (List.perm_cons_erase hkel).symm.trans hl
        · intro hx
          rw [hgpol] at hx
          rw [hkeys]
          rcases hgpq with h | h
          · rw [h]; exact hheap hx
          · exact h.trans (hheap hx)

theorem WF_Delete {c : Cache K V} (hwf : WF c) (k : K) :
    WF (c.Delete k) ∧
    (keysOf (c.Delete k).items = keysOf c.items ∨
      keysOf (c.Delete k).items = (keysOf c.items).erase k) ∧
    (c.Delete k).policy = c.policy ∧
    (c.Delete k).capacity = c.capacity ∧
    (c.Delete k).ttl = c.ttl := by
  unfold Delete
  cases hfind : assocFind c.items k with
  | none => exact ⟨hwf, Or.inl rfl, rfl, rfl, rfl⟩
  | some e =>
    have hmem : k ∈ keysOf c.items := mem_keysOf_of_find_some hfind
    obtain ⟨hwf', hkeys'⟩ := WF_removeElement hwf hmem
    obtain ⟨h1, h2, h3⟩ := removeElement_fields c k
    exact ⟨hwf', Or.inr hkeys', h1, h2, h3⟩

theorem WF_Clear (c : Cache K V) :
    WF (c.Clear) ∧ (c.Clear).items = [] ∧ (c.Clear).policy = c.policy ∧
    (c.Clear).capacity = c.capacity ∧ (c.Clear).ttl = c.ttl := by
  refine ⟨⟨?_, ?_, ?_⟩, rfl, rfl, rfl, rfl⟩
  · simp [Clear, keysOf]
  · intro _
    simp [Clear, keysOf]
  · intro _
    simp [Clear, keysOf]

theorem WF_New (opts : List (Cache K V → Cache K V))
    (hopts : ∀ c : Cache K V, ∀ o ∈ opts, ((o c).items = c.items ∧ (o c).pq = c.pq ∧
      (o c).evictList = c.evictList)) :
    WF (New opts) ∧ (New opts).items = [] := by
  unfold New
  suffices h : ∀ (c : Cache K V), c.items = [] → c.pq = [] → c.evictList = [] →
      WF (opts.foldl (fun c opt => opt c) c) ∧
      (opts.foldl (fun c opt => opt c) c).items = [] by
    exact h _ rfl rfl rfl
  induction opts with
  | nil =>
    intro c hitems hpq hlist
    simp only [List.foldl_nil]
    refine ⟨⟨?_, ?_, ?_⟩, hitems⟩
    · rw [hitems]; exact List.nodup_nil
    · intro _
      rw [hitems, hlist]
      rfl
    · intro _
      rw [hitems, hpq]
      rfl
  | cons o t ih =>
    intro c hitems hpq hlist
    have ho := hopts c o (by simp)
    have ht : ∀ c : Cache K V, ∀ o ∈ t, ((o c).items = c.items ∧ (o c).pq = c.pq ∧
        (o c).evictList = c.evictList) := fun c o hmem => hopts c o (by simp [hmem])
    simp only [List.foldl_cons]
    exact ih ht (o c) (ho.1.trans hitems) (ho.2.1.trans hpq) (ho.2.2.trans hlist)

theorem if_evict_capacity (c : Cache K V) (cond : Prop) [Decidable cond] :
    (if cond then c.evict else c).capacity = c.capacity := by
  split
  · exact evict_capacity c
  · rfl

theorem if_evict_ttl (c : Cache K V) (cond : Prop) [Decidable cond] :
    (if cond then c.evict else c).ttl = c.ttl := by
  split
  · exact evict_ttl c
  · rfl

theorem Set_policy (c : Cache K V) (now : Int) (k : K) (v : V) :
    (c.Set now k v).policy = c.policy := by
  simp only [Set]
  split
  · split <;> rfl
  · split
    · split <;> rfl
    · split <;> exact if_evict_policy c _

theorem Set_capacity (c : Cache K V) (now : Int) (k : K) (v : V) :
    (c.Set now k v).capacity = c.capacity := by
  simp only [Set]
  split
  · split <;> rfl
  · split
    · split <;> rfl
    · split <;> exact if_evict_capacity c _

theorem Set_ttl (c : Cache K V) (now : Int) (k : K) (v : V) :
    (c.Set now k v).ttl = c.ttl := by
  simp only [Set]
  split
  · split <;> rfl
  · split
    · split <;> rfl
    · split <;> exact if_evict_ttl c _

theorem keysOf_length (l : List (K × entry V)) : (keysOf l).length = l.length := by
  simp [keysOf]

theorem applyOp_inv {c : Cache K V} (hwf : WF c) (op : Op K V)
    (hpol : c.policy ≠ .PolicyNone) (hcap : 0 < c.capacity)
    (hlen : (c.items.length : Int) ≤ c.capacity) :
    WF (c.applyOp op) ∧ (c.applyOp op).capacity = c.capacity ∧
    (c.applyOp op).policy = c.policy ∧
    ((c.applyOp op).items.length : Int) ≤ c.capacity := by
  cases op with
  | set now k v =>
    obtain ⟨hwf', hmemcase, hnewcase⟩ := Set_spec hwf now k v
    refine ⟨hwf', Set_capacity c now k v, Set_policy c now k v, ?_⟩
    show ((c.Set now k v).items.length : Int) ≤ c.capacity
    rw [← keysOf_length]
    by_cases hk : k ∈ keysOf c.items
    · rw [hmemcase hk, keysOf_length]
      exact hlen
    · by_cases hcond : 0 < c.capacity ∧ c.capacity ≤ (c.items.length : Int)
      · obtain ⟨k', hk'mem, hkeq⟩ := (hnewcase hk).2 hpol hcond.1 hcond.2
        rw [hkeq]
        have h1 : ((keysOf c.items).erase k').length = (keysOf c.items).length - 1 :=
          List.length_erase_of_mem hk'mem
        have h2 : 0 < (keysOf c.items).length := List.length_pos.mpr (by
          intro h0
          rw [h0] at hk'mem
          simp at hk'mem)
        have h3 := keysOf_length c.items
        simp only [List.length_append, List.length_cons, List.length_nil, h1]
        omega
      · rw [(hnewcase hk).1 (Or.inr hcond)]
        have h3 := keysOf_length c.items
        have hlt : ¬(c.capacity ≤ (c.items.length : Int)) := fun h => hcond ⟨hcap, h⟩
        simp only [List.length_append, List.length_cons, List.length_nil]
        omega
  | get now k =>
    obtain ⟨hwf', hkeys, hp, hcap, _⟩ := WF_Get hwf now k
    refine ⟨hwf', hcap, hp, ?_⟩
    show (((c.Get now k).1.items.length : Int)) ≤ c.capacity
    rw [← keysOf_length]
    rcases hkeys with h | h
    · rw [h, keysOf_length]
      exact hlen
    · rw [h]
      have h1 := List.length_erase_le k (keysOf c.items)
      have h3 := keysOf_length c.items
      omega
  | del k =>
    obtain ⟨hwf', hkeys, hp, hcap, _⟩ := WF_Delete hwf k
    refine ⟨hwf', hcap, hp, ?_⟩
    show (((c.Delete k).items.length : Int)) ≤ c.capacity
    rw [← keysOf_length]
    rcases hkeys with h | h
    · rw [h, keysOf_length]
      exact hlen
    · rw [h]
      have h1 := List.length_erase_le k (keysOf c.items)
      have h3 := keysOf_length c.items
      omega
  | clear =>
    obtain ⟨hwf', hitems, hp, hcap, _⟩ := WF_Clear c
    refine ⟨hwf', hcap, hp, ?_⟩
    show (((c.Clear).items.length : Int)) ≤ c.capacity
    rw [hitems]
    simp only [List.length_nil, Nat.cast_zero]
    omega

theorem run_inv {c : Cache K V} (hwf : WF c) (ops : List (Op K V))
    (hpol : c.policy ≠ .PolicyNone) (hcap : 0 < c.capacity)
    (hlen : (c.items.length : Int) ≤ c.capacity) :
    WF (c.run ops) ∧ (c.run ops).capacity = c.capacity ∧
    (c.run ops).policy = c.policy ∧
    ((c.run ops).items.length : Int) ≤ c.capacity := by
  induction ops generalizing c with
  | nil => exact ⟨hwf, rfl, rfl, hlen⟩
  | cons op t ih =>
    obtain ⟨hwf', hcap', hp', hlen'⟩ := applyOp_inv hwf op hpol hcap hlen
    obtain ⟨hwf2, hcap2, hp2, hlen2⟩ := ih hwf' (by rw [hp']; exact hpol) (by rw [hcap']; exact hcap)
      (by rw [hcap']; exact hlen')
    simp only [run, List.foldl_cons]
    refine ⟨hwf2, ?_, ?_, ?_⟩
    · show ((c.applyOp op).run t).capacity = c.capacity
      rw [hcap2, hcap']
    · show ((c.applyOp op).run t).policy = c.policy
      rw [hp2, hp']
    · show (((c.applyOp op).run t).items.length : Int) ≤ c.capacity
      rw [hcap'] at hlen2
      exact hlen2

theorem New_two_opts (cap : Int) (pol : Policy) :
    (New [WithCapacity cap, WithPolicy pol] : Cache K V) =
      { capacity := cap, policy := pol, ttl := 0, items := [], pq := [], evictList := [] } := rfl

theorem WF_New_two_opts (cap : Int) (pol : Policy) :
    WF (New [WithCapacity cap, WithPolicy pol] : Cache K V) := by
  rw [New_two_opts]
  exact ⟨List.nodup_nil, fun _ => List.Perm.refl _, fun _ => List.Perm.refl _⟩

theorem removeElement_items (c : Cache K V) (k : K) :
    (c.removeElement k).items = assocErase c.items k := by
  unfold removeElement
  split <;> rfl

theorem Get_policy (c : Cache K V) (now : Int) (k : K) :
    (c.Get now k).1.policy = c.policy := by
  simp only [Get]
  split
  · rfl
  · split
    · split
      · exact (removeElement_fields c _).1
      · split <;> rfl
    · rfl

theorem Delete_policy (c : Cache K V) (k : K) : (c.Delete k).policy = c.policy := by
  unfold Delete
  split
  · exact (removeElement_fields c _).1
  · rfl

theorem SetNone_find_self {c : Cache K V} (now : Int) (k : K) (v : V)
    (hpol : c.policy = .PolicyNone) :
    assocFind (c.Set now k v).items k =
      some (match assocFind c.items k with
            | some e => { e with value := v }
            | none => ⟨v, 0, 0, 0, 0⟩) := by
  cases hfind : assocFind c.items k with
  | some e =>
    simp only [Set, if_pos hpol, hfind]
    exact assocFind_assocSet_self _ _
  | none =>
    simp only [Set, if_pos hpol, hfind]
    exact assocFind_assocSet_self _ _

theorem SetNone_find_ne {c : Cache K V} (now : Int) {k k' : K} (v : V)
    (hpol : c.policy = .PolicyNone) (hne : k' ≠ k) :
    assocFind (c.Set now k v).items k' = assocFind c.items k' := by
  cases hfind : assocFind c.items k with
  | some e =>
    simp only [Set, if_pos hpol, hfind]
    exact assocFind_assocSet_ne _ hne
  | none =>
    simp only [Set, if_pos hpol, hfind]
    exact assocFind_assocSet_ne _ hne

theorem SetNone_state {c : Cache K V} (now : Int) (k : K) (v : V)
    (hpol : c.policy = .PolicyNone) :
    (c.Set now k v).policy = c.policy ∧ (c.Set now k v).ttl = c.ttl := by
  cases hfind : assocFind c.items k with
  | some e =>
    constructor <;> simp only [Set, if_pos hpol, hfind]
  | none =>
    constructor <;> simp only [Set, if_pos hpol, hfind]

theorem GetNone_state {c : Cache K V} (now : Int) (k : K)
    (hpol : c.policy = .PolicyNone) : (c.Get now k).1 = c := by
  rw [Get_policyNone now k hpol]

theorem Set_fresh_find {c : Cache K V} {now : Int} {k : K} {v : V}
    (hpol : c.policy ≠ .PolicyNone) (hfind : assocFind c.items k = none) :
    assocFind (c.Set now k v).items k =
      some ⟨v, now, now, 1, if c.ttl > 0 then now + c.ttl else 0⟩ := by
  simp only [Set, if_neg hpol, hfind]
  split
  all_goals exact assocFind_assocSet_self _ _

theorem Set_hit_find {c : Cache K V} {now : Int} {k : K} {v : V} {e : entry V}
    (hpol : c.policy ≠ .PolicyNone) (hfind : assocFind c.items k = some e) :
    assocFind (c.Set now k v).items k =
      some { e with value := v, accessTime := now, frequency := e.frequency + 1, expiration := if c.ttl > 0 then (if c.ttl > 0 then now + c.ttl else 0) else e.expiration } := by
  simp only [Set, if_neg hpol, hfind]
  split
  all_goals exact assocFind_assocSet_self _ _

theorem Set_hit_LRU_evictList {c : Cache K V} {now : Int} {k : K} {v : V} {e : entry V}
    (hp : c.policy = .PolicyLRU) (hfind : assocFind c.items k = some e) :
    (c.Set now k v).evictList = moveToFront c.evictList k := by
  have hpol : c.policy ≠ .PolicyNone := by rw [hp]; decide
  obtain ⟨items', hSet⟩ : ∃ items',
      c.Set now k v = { c with items := items', evictList := moveToFront c.evictList k } :=
    ⟨_, by simp only [Set, if_neg hpol, hfind]; rw [hp]⟩
  rw [hSet]

theorem Set_fresh_LRU_evictList {c : Cache K V} {now : Int} {k : K} {v : V}
    (hp : c.policy = .PolicyLRU) (hfind : assocFind c.items k = none) :
    (c.Set now k v).evictList =
      k :: (if 0 < c.capacity ∧ c.capacity ≤ (c.items.length : Int) then c.evict
            else c).evictList := by
  have hpol : c.policy ≠ .PolicyNone := by rw [hp]; decide
  simp only [Set, if_neg hpol, hfind]
  split
  all_goals rename_i heq
  case _ =>
    rfl
  case _ =>
    rfl
  all_goals
    exact absurd (hp.symm.trans ((if_evict_policy c _).symm.trans heq)) (by decide)

theorem evict_LRU_victim {c : Cache K V} {k : K} (hwf : WF c)
    (hp : c.policy = .PolicyLRU) (hlast : c.evictList.getLast? = some k) :
    keysOf (c.evict).items = (keysOf c.items).erase k := by
  have hev : c.evict = c.removeElement k := by
    simp only [evict, hp, hlast]
  have hmem : k ∈ keysOf c.items := by
    have hl := hwf.2.1 (by rw [hp]; exact Or.inl rfl)
    exact hl.mem_iff.mp (mem_of_getLast?_eq hlast)
  rw [hev]
  exact (WF_removeElement hwf hmem).2

theorem GetOrSet_error {E : Type} {c : Cache K V} (now : Int) {k : K} {err : E}
    {loader : Unit → Except E V}
    (hfind : assocFind c.items k = none) (hload : loader () = Except.error err) :
    c.GetOrSet now k loader = (c, Except.error err, true) := by
  unfold GetOrSet
  rw [Get_miss now k hfind, hload]

theorem GetOrSet_miss_invokes {E : Type} {c : Cache K V} (now : Int) {k : K}
    {loader : Unit → Except E V} (hfind : assocFind c.items k = none) :
    (c.GetOrSet now k loader).2.2 = true := by
  unfold GetOrSet
  rw [Get_miss now k hfind]
  cases hl : loader () <;> simp [hl]

theorem evict_heap_victim {c : Cache K V} (hwf : WF c) (hp : usesHeap c.policy)
    (hne : c.items ≠ []) :
    ∃ k0, c.pq[0]? = some k0 ∧ k0 ∈ keysOf c.items ∧
      keysOf (c.evict).items = (keysOf c.items).erase k0 := by
  obtain ⟨hnodup, hlist, hheap⟩ := hwf
  have hq : c.pq.Perm (keysOf c.items) := hheap hp
  have hkne : keysOf c.items ≠ [] := keysOf_ne_nil hne
  have hqne : c.pq ≠ [] := by
    intro h0
    have := hq.length_eq
    rw [h0] at this
    exact hkne (List.length_eq_zero.mp this.symm)
  have hqlen : 0 < c.pq.length := List.length_pos.mpr hqne
  obtain ⟨x, hx0, hxeq, hxperm⟩ := heapPop_spec (lessK c.policy c.items) hqne
  have hmem : x ∈ keysOf c.items := by
    obtain ⟨hb, hbe⟩ := List.getElem?_eq_some.mp hx0
    exact hq.mem_iff.mp (hbe ▸ List.getElem_mem hb)
  obtain ⟨rest, hxeq2⟩ : ∃ rest, heapPop (lessK c.policy c.items) c.pq = (some x, rest) :=
    ⟨(heapPop (lessK c.policy c.items) c.pq).2, hxeq⟩
  have hev : c.evict = { c with pq := rest, items := assocErase c.items x } := by
    rcases hp with hp | hp <;>
      (rw [hp] at hxeq2
       simp only [evict, hp, if_pos hqlen, hxeq2])
  refine ⟨x, hx0, hmem, ?_⟩
  rw [hev]
  exact keysOf_assocErase

theorem Delete_find_ne {c : Cache K V} {k k'' : K} (hne : k'' ≠ k) :
    assocFind (c.Delete k).items k'' = assocFind c.items k'' := by
  unfold Delete
  split
  · rw [removeElement_items]
    exact assocFind_assocErase_ne hne
  · rfl

theorem applyOp_policy (c : Cache K V) (op : Op K V) :
    (c.applyOp op).policy = c.policy := by
  cases op with
  | set now k v => exact Set_policy c now k v
  | get now k => exact Get_policy c now k
  | del k => exact Delete_policy c k
  | clear => rfl

theorem run_policy (c : Cache K V) (ops : List (Op K V)) :
    (c.run ops).policy = c.policy := by
  induction ops generalizing c with
  | nil => rfl
  | cons op t ih =>
    simp only [run, List.foldl_cons]
    exact (ih (c.applyOp op)).trans (applyOp_policy c op)


theorem runNone_aux {c : Cache K V} (hpol : c.policy = .PolicyNone) (ops : List (Op K V))
    (k : K) (acc : Option V)
    (hacc : ∀ v, acc = some v → ∃ e, assocFind c.items k = some e ∧ e.value = v) :
    ∀ v, ops.foldl (writeFold k) acc = some v →
      ∃ e, assocFind (c.run ops).items k = some e ∧ e.value = v := by
  induction ops generalizing c acc with
  | nil =>
    intro v hv
    exact hacc v hv
  | cons op t ih =>
    intro v hv
    simp only [List.foldl_cons] at hv
    simp only [run, List.foldl_cons]
    have hpol' : (c.applyOp op).policy = .PolicyNone := (applyOp_policy c op).trans hpol
    have hstep : ∀ w, writeFold k acc op = some w →
        ∃ e, assocFind (c.applyOp op).items k = some e ∧ e.value = w := by
      cases op with
      | set now k' v' =>
        by_cases hk : k' = k
        · subst hk
          intro w hw
          simp only [writeFold, if_pos rfl] at hw
          have hw' : v' = w := Option.some.inj hw
          subst hw'
          show ∃ e, assocFind (c.Set now k' v').items k' = some e ∧ e.value = v'
          rw [SetNone_find_self now k' v' hpol]
          cases hfind : assocFind c.items k' with
          | some e => exact ⟨_, rfl, rfl⟩
          | none => exact ⟨_, rfl, rfl⟩
        · intro w hw
          simp only [writeFold, if_neg hk] at hw
          show ∃ e, assocFind (c.Set now k' v').items k = some e ∧ e.value = w
          rw [SetNone_find_ne now v' hpol (fun h => hk h.symm)]
          exact hacc w hw
      | get now k' =>
        intro w hw
        simp only [writeFold] at hw
        show ∃ e, assocFind ((c.Get now k').1).items k = some e ∧ e.value = w
        rw [GetNone_state now k' hpol]
        exact hacc w hw
      | del k' =>
        by_cases hk : k' = k
        · intro w hw
          simp only [writeFold, if_pos hk] at hw
          exact Option.noConfusion hw
        · intro w hw
          simp only [writeFold, if_neg hk] at hw
          show ∃ e, assocFind (c.Delete k').items k = some e ∧ e.value = w
          rw [Delete_find_ne (fun h => hk h.symm)]
          exact hacc w hw
      | clear =>
        intro w hw
        simp only [writeFold] at hw
        exact Option.noConfusion hw
    exact ih hpol' (writeFold k acc op) hstep v hv

end Cache

/-- Root minimality: under the heap invariant, no element compares strictly
below the root, provided the comparison is irreflexive and
negation-transitive on the heap's elements. -/
theorem heap_root_min (less : α → α → Bool) {l : List α}
    (hord : HeapOrdered less l)
    (hirr : ∀ a ∈ l, less a a = false)
    (hnt : ∀ a b c', a ∈ l → b ∈ l → c' ∈ l →
      less a b = false → less b c' = false → less a c' = false) :
    ∀ i, i < l.length → ∀ x0 x, l[0]? = some x0 → l[i]? = some x → less x x0 = false := by
  intro i
  induction i using Nat.strong_induction_on with
  | _ i ih =>
    intro hi x0 x h0 hx
    rcases Nat.eq_zero_or_pos i with hz | hpos
    · subst hz
      rw [h0] at hx
      have hxx : x0 = x := Option.some.inj hx
      subst hxx
      apply hirr
      obtain ⟨hb, hbe⟩ := List.getElem?_eq_some.mp h0
      exact hbe ▸ List.getElem_mem hb
    · have hparent : (i - 1) / 2 < i := by omega
      have hplen : (i - 1) / 2 < l.length := lt_trans hparent hi
      obtain ⟨xp, hxp⟩ : ∃ xp, l[(i - 1) / 2]? = some xp :=
        ⟨l[(i - 1) / 2], List.getElem?_eq_getElem hplen⟩
      have h1 : lessAt less l i ((i - 1) / 2) = false := hord i hi hpos
      unfold lessAt at h1
      rw [hx, hxp] at h1
      have h2 : less xp x0 = false := ih ((i - 1) / 2) hparent hplen x0 xp h0 hxp
      have hm : ∀ {m : Nat} {y : α}, l[m]? = some y → y ∈ l := by
        intro m y hy
        obtain ⟨hb, hbe⟩ := List.getElem?_eq_some.mp hy
        exact hbe ▸ List.getElem_mem hb
      exact hnt x xp x0 (hm hx) (hm hxp) (hm h0) h1 h2

/-- Irreflexivity of `priorityQueue.Less` under every policy. -/
theorem pqLess_irrefl (p : Policy) (a : entry V) : pqLess p a a = false := by
  cases p <;> simp [pqLess]

/-- Negation-transitivity of `priorityQueue.Less` under every policy: the
induced "not strictly below" relation is transitive, as required of a strict
weak ordering. -/
theorem pqLess_negTrans (p : Policy) (a b c' : entry V)
    (h1 : pqLess p a b = false) (h2 : pqLess p b c' = false) :
    pqLess p a c' = false := by
  cases p with
  | PolicyLFU =>
    simp only [pqLess] at h1 h2 ⊢
    split_ifs at h1 h2 ⊢ <;>
      first
      | rfl
      | (simp only [decide_eq_false_iff_not, not_lt] at h1 h2 ⊢; omega)
      | simp_all
      | (simp_all; omega)
  | PolicyTTL =>
    simp only [pqLess] at h1 h2 ⊢
    split_ifs at h1 h2 ⊢ <;>
      first
      | rfl
      | (simp only [decide_eq_false_iff_not, not_lt] at h1 h2 ⊢; omega)
      | simp_all
      | (simp_all; omega)
  | PolicyLRU =>
    simp only [pqLess, decide_eq_false_iff_not, not_lt] at h1 h2 ⊢
    omega
  | PolicyFIFO =>
    simp only [pqLess, decide_eq_false_iff_not, not_lt] at h1 h2 ⊢
    omega
  | PolicyNone =>
    simp only [pqLess, decide_eq_false_iff_not, not_lt] at h1 h2 ⊢
    omega

/-- Transitivity of `priorityQueue.Less` under every policy. -/
theorem pqLess_trans (p : Policy) (a b c' : entry V)
    (h1 : pqLess p a b = true) (h2 : pqLess p b c' = true) :
    pqLess p a c' = true := by
  cases p with
  | PolicyLFU =>
    simp only [pqLess] at h1 h2 ⊢
    split_ifs at h1 h2 ⊢ <;>
      first
      | rfl
      | (simp only [decide_eq_true_eq] at h1 h2 ⊢; omega)
      | simp_all
      | (simp_all; omega)
  | PolicyTTL =>
    simp only [pqLess] at h1 h2 ⊢
    split_ifs at h1 h2 ⊢ <;>
      first
      | rfl
      | (simp only [decide_eq_true_eq] at h1 h2 ⊢; omega)
      | simp_all
      | (simp_all; omega)
  | PolicyLRU =>
    simp only [pqLess, decide_eq_true_eq] at h1 h2 ⊢
    omega
  | PolicyFIFO =>
    simp only [pqLess, decide_eq_true_eq] at h1 h2 ⊢
    omega
  | PolicyNone =>
    simp only [pqLess, decide_eq_true_eq] at h1 h2 ⊢
    omega

/-!
Preservation of the heap invariant at the cache level: every operation keeps
the priority queue heap-ordered with respect to the live entry store, so the
`container/heap` contract assumed by the eviction lemmas holds in every
reachable state.
-/

theorem heapOrdered_congr {α : Type} {less less' : α → α → Bool} {l : List α}
    (hs : ∀ a ∈ l, ∀ b ∈ l, less' a b = less a b)
    (hord : HeapOrdered less l) : HeapOrdered less' l := by
  intro m hm hm0
  have hpb : (m - 1) / 2 < l.length := by omega
  have h1 := hord m hm hm0
  rw [lessAt_eq less l hm hpb] at h1
  rw [lessAt_eq less' l hm hpb,
    hs _ (List.getElem_mem hm) _ (List.getElem_mem hpb)]
  exact h1

namespace Cache

variable {K V : Type} [DecidableEq K]

theorem getElem_ne_of_nodup {l : List K} (hnodup : l.Nodup) {k : K} (hk : k ∈ l)
    {m : Nat} (hm : m < l.length) (hne : m ≠ idxOf k l) : l[m] ≠ k := by
  intro heq
  have hidx : idxOf k l < l.length := idxOf_lt_length hk
  have h2 : l[idxOf k l] = k := by
    have h3 := getElem?_idxOf hk
    rw [List.getElem?_eq_getElem hidx] at h3
    exact Option.some.inj h3
  have h4 : l[m] = l[idxOf k l] := by rw [heq, h2]
  exact hne ((List.Nodup.getElem_inj_iff hnodup).mp h4)

theorem swoOn_lessK {p : Policy} {items : List (K × entry V)} {l : List K}
    (hfound : ∀ a ∈ l, a ∈ keysOf items) : SWOOn (lessK p items) l := by
  refine ⟨?_, ?_, ?_⟩
  · intro a ha
    obtain ⟨ea, hea⟩ := find_isSome_of_mem_keysOf (hfound a ha)
    simp only [lessK, hea]
    exact pqLess_irrefl _ _
  · intro a b c' ha hb hc h1 h2
    obtain ⟨ea, hea⟩ := find_isSome_of_mem_keysOf (hfound a ha)
    obtain ⟨eb, heb⟩ := find_isSome_of_mem_keysOf (hfound b hb)
    obtain ⟨ec, hec⟩ := find_isSome_of_mem_keysOf (hfound c' hc)
    simp only [lessK, hea, heb, hec] at h1 h2 ⊢
    exact pqLess_trans _ _ _ _ h1 h2
  · intro a b c' ha hb hc h1 h2
    obtain ⟨ea, hea⟩ := find_isSome_of_mem_keysOf (hfound a ha)
    obtain ⟨eb, heb⟩ := find_isSome_of_mem_keysOf (hfound b hb)
    obtain ⟨ec, hec⟩ := find_isSome_of_mem_keysOf (hfound c' hc)
    simp only [lessK, hea, heb, hec] at h1 h2 ⊢
    exact pqLess_negTrans _ _ _ _ h1 h2

theorem lessK_assocSet_ne {p : Policy} {items : List (K × entry V)} {k : K}
    (e : entry V) {a b : K} (ha : a ≠ k) (hb : b ≠ k) :
    lessK p (assocSet items k e) a b = lessK p items a b := by
  simp only [lessK, assocFind_assocSet_ne e ha, assocFind_assocSet_ne e hb]

theorem lessK_assocErase_ne {p : Policy} {items : List (K × entry V)} {k : K}
    {a b : K} (ha : a ≠ k) (hb : b ≠ k) :
    lessK p (assocErase items k) a b = lessK p items a b := by
  simp only [lessK, assocFind_assocErase_ne ha, assocFind_assocErase_ne hb]

/-- Mutating one entry and re-fixing its heap position (`heap.Fix` after an
in-place update) preserves the heap invariant. -/
theorem heapFix_lessK_heapOrdered {p : Policy} {items : List (K × entry V)} {pq : List K}
    (hnodup : pq.Nodup) (hfound : ∀ a ∈ pq, a ∈ keysOf items)
    (hord : HeapOrdered (lessK p items) pq) {k : K} (hk : k ∈ pq) (e' : entry V) :
    HeapOrdered (lessK p (assocSet items k e'))
      (heapFix (lessK p (assocSet items k e')) pq (idxOf k pq)) := by
  have hfound' : ∀ a ∈ pq, a ∈ keysOf (assocSet items k e') := by
    intro a ha
    rw [keysOf_assocSet_of_mem e' (hfound k hk)]
    exact hfound a ha
  have hswo : SWOOn (lessK p items) pq := swoOn_lessK hfound
  have hidx : idxOf k pq < pq.length := idxOf_lt_length hk
  refine heapFix_heapOrdered _ pq (idxOf k pq) (swoOn_lessK hfound') hidx ?_ ?_
  · intro m hm hm0 hmne hpmne
    have hpb : (m - 1) / 2 < pq.length := by omega
    rw [lessAt_eq _ pq hm hpb,
      lessK_assocSet_ne e' (getElem_ne_of_nodup hnodup hk hm hmne)
        (getElem_ne_of_nodup hnodup hk hpb hpmne)]
    have h1 := hord m hm hm0
    rw [lessAt_eq _ pq hm hpb] at h1
    exact h1
  · intro hi0 c' hc hpc
    have hpb : (idxOf k pq - 1) / 2 < pq.length := by omega
    have h1 := hord c' hc (by omega)
    rw [hpc, lessAt_eq _ pq hc hidx] at h1
    have h2 := hord (idxOf k pq) hidx hi0
    rw [lessAt_eq _ pq hidx hpb] at h2
    rw [lessAt_eq _ pq hc hpb,
      lessK_assocSet_ne e' (getElem_ne_of_nodup hnodup hk hc (by omega))
        (getElem_ne_of_nodup hnodup hk hpb (by omega))]
    exact hswo.2.2 _ _ _ (List.getElem_mem hc) (List.getElem_mem hidx)
      (List.getElem_mem hpb) h1 h2

/-- Inserting a fresh entry and pushing its key (`heap.Push`) preserves the
heap invariant. -/
theorem heapPush_lessK_heapOrdered {p : Policy} {items : List (K × entry V)} {pq : List K}
    (hfound : ∀ a ∈ pq, a ∈ keysOf items)
    (hord : HeapOrdered (lessK p items) pq) {k : K} (hknot : k ∉ keysOf items)
    (hkpq : k ∉ pq) (e : entry V) :
    HeapOrdered (lessK p (assocSet items k e))
      (heapPush (lessK p (assocSet items k e)) pq k) := by
  have hkeys' : keysOf (assocSet items k e) = keysOf items ++ [k] := by
    rw [assocSet_of_not_mem e hknot]
    simp [keysOf]
  have hfound' : ∀ a ∈ pq ++ [k], a ∈ keysOf (assocSet items k e) := by
    intro a ha
    rw [hkeys']
    rcases List.mem_append.mp ha with h | h
    · exact List.mem_append.mpr (Or.inl (hfound a h))
    · exact List.mem_append.mpr (Or.inr h)
  have hord' : HeapOrdered (lessK p (assocSet items k e)) pq := by
    refine heapOrdered_congr ?_ hord
    intro a ha b hb
    exact lessK_assocSet_ne e (fun hh => hkpq (hh ▸ ha)) (fun hh => hkpq (hh ▸ hb))
  exact heapPush_heapOrdered _ pq k (swoOn_lessK hfound') hord'

/-- Removing one key (`heap.Remove`) and deleting its entry preserves the
heap invariant. -/
theorem heapRemove_lessK_heapOrdered {p : Policy} {items : List (K × entry V)} {pq : List K}
    (hnodup : pq.Nodup) (hfound : ∀ a ∈ pq, a ∈ keysOf items)
    (hord : HeapOrdered (lessK p items) pq) {k : K} (hk : k ∈ pq) :
    HeapOrdered (lessK p (assocErase items k))
      (heapRemove (lessK p items) pq (idxOf k pq)) := by
  have hidx : idxOf k pq < pq.length := idxOf_lt_length hk
  obtain ⟨x, hx1, hx2⟩ := heapRemove_spec (lessK p items) hidx
  have hxk : x = k := by
    rw [getElem?_idxOf hk] at hx1
    exact (Option.some.inj hx1).symm
  subst hxk
  have hnodup2 : (x :: heapRemove (lessK p items) pq (idxOf x pq)).Nodup :=
    hx2.nodup_iff.mp hnodup
  have hknot : x ∉ heapRemove (lessK p items) pq (idxOf x pq) :=
    (List.nodup_cons.mp hnodup2).1
  have h1 : HeapOrdered (lessK p items) (heapRemove (lessK p items) pq (idxOf x pq)) :=
    heapRemove_heapOrdered _ pq _ (swoOn_lessK hfound) hidx hord
  refine heapOrdered_congr ?_ h1
  intro a ha b hb
  exact lessK_assocErase_ne (fun hh => hknot (hh ▸ ha)) (fun hh => hknot (hh ▸ hb))

/-- Popping the heap root (`heap.Pop` inside `evict`) and deleting its entry
preserves the heap invariant. -/
theorem heapPop_lessK_heapOrdered {p : Policy} {items : List (K × entry V)} {pq : List K}
    (hnodup : pq.Nodup) (hfound : ∀ a ∈ pq, a ∈ keysOf items)
    (hord : HeapOrdered (lessK p items) pq) {k0 : K} {pq' : List K}
    (hpop : heapPop (lessK p items) pq = (some k0, pq')) :
    HeapOrdered (lessK p (assocErase items k0)) pq' := by
  have hne : pq ≠ [] := by
    intro h0
    subst h0
    simp [heapPop] at hpop
  obtain ⟨x, hx0, hxeq, hxperm⟩ := heapPop_spec (lessK p items) hne
  have h2 : (heapPop (lessK p items) pq).2 = pq' := by rw [hpop]
  have hxk : x = k0 := by
    rw [hpop] at hxeq
    have h3 := congrArg Prod.fst hxeq
    simp at h3
    exact h3.symm
  subst hxk
  have h1 : HeapOrdered (lessK p items) pq' := by
    have h3 := heapPop_heapOrdered (lessK p items) pq (swoOn_lessK hfound) hord
    rwa [h2] at h3
  rw [h2] at hxperm
  have hnodup2 : (x :: pq').Nodup := hxperm.nodup_iff.mp hnodup
  have hknot : x ∉ pq' := (List.nodup_cons.mp hnodup2).1
  refine heapOrdered_congr ?_ h1
  intro a ha b hb
  exact lessK_assocErase_ne (fun hh => hknot (hh ▸ ha)) (fun hh => hknot (hh ▸ hb))


theorem HeapWF_removeElement {c : Cache K V} (hwf : WF c) (hhwf : HeapWF c)
    {k : K} (hk : k ∈ keysOf c.items) : HeapWF (c.removeElement k) := by
  intro hx
  rw [(removeElement_fields c k).1] at hx
  cases hp : c.policy with
  | PolicyNone =>
    rw [hp] at hx
    exact absurd hx not_usesHeap_None
  | PolicyLRU =>
    rw [hp] at hx
    exact absurd hx not_usesHeap_LRU
  | PolicyFIFO =>
    rw [hp] at hx
    exact absurd hx not_usesHeap_FIFO
  | PolicyLFU | PolicyTTL =>
    have husen : usesHeap c.policy := by
      rw [hp]
      first
      | exact Or.inl rfl
      | exact Or.inr rfl
    have hq : c.pq.Perm (keysOf c.items) := hwf.2.2 husen
    have hord : HeapOrdered (lessK c.policy c.items) c.pq := hhwf husen
    have hnodupq : c.pq.Nodup := hq.nodup_iff.mpr hwf.1
    have hfoundq : ∀ a ∈ c.pq, a ∈ keysOf c.items := fun a ha => hq.subset ha
    have hre : c.removeElement k = { c with
        pq := heapRemove (lessK c.policy c.items) c.pq (idxOf k c.pq),
        items := assocErase c.items k } := by
      simp only [removeElement, hp]
    rw [hre]
    exact heapRemove_lessK_heapOrdered hnodupq hfoundq hord (hq.mem_iff.mpr hk)

theorem HeapWF_evict {c : Cache K V} (hwf : WF c) (hhwf : HeapWF c) :
    HeapWF c.evict := by
  intro hx
  rw [evict_policy] at hx
  cases hp : c.policy with
  | PolicyNone =>
    rw [hp] at hx
    exact absurd hx not_usesHeap_None
  | PolicyLRU =>
    rw [hp] at hx
    exact absurd hx not_usesHeap_LRU
  | PolicyFIFO =>
    rw [hp] at hx
    exact absurd hx not_usesHeap_FIFO
  | PolicyLFU | PolicyTTL =>
    have husen : usesHeap c.policy := by
      rw [hp]
      first
      | exact Or.inl rfl
      | exact Or.inr rfl
    have hq : c.pq.Perm (keysOf c.items) := hwf.2.2 husen
    have hord : HeapOrdered (lessK c.policy c.items) c.pq := hhwf husen
    have hnodupq : c.pq.Nodup := hq.nodup_iff.mpr hwf.1
    have hfoundq : ∀ a ∈ c.pq, a ∈ keysOf c.items := fun a ha => hq.subset ha
    by_cases hqlen : c.pq.length > 0
    · cases hpop : heapPop (lessK c.policy c.items) c.pq with
      | mk o pq' =>
        cases o with
        | some k0 =>
          have hev : c.evict = { c with pq := pq', items := assocErase c.items k0 } := by
            rw [hp] at hpop
            simp only [evict, hp, if_pos hqlen, hpop]
          rw [hev]
          exact heapPop_lessK_heapOrdered hnodupq hfoundq hord hpop
        | none =>
          have hev : c.evict = { c with pq := pq' } := by
            rw [hp] at hpop
            simp only [evict, hp, if_pos hqlen, hpop]
          rw [hev]
          show HeapOrdered (lessK c.policy c.items) pq'
          have h1 := heapPop_heapOrdered (lessK c.policy c.items) c.pq
            (swoOn_lessK hfoundq) hord
          rw [hpop] at h1
          exact h1
    · have hev : c.evict = c := by
        simp only [evict, hp, if_neg hqlen]
      rw [hev]
      exact hord

theorem HeapWF_Set {c : Cache K V} (hwf : WF c) (hhwf : HeapWF c) (now : Int)
    (k : K) (v : V) : HeapWF (c.Set now k v) := by
  by_cases hpol : c.policy = .PolicyNone
  · intro hx
    rw [Set_policy, hpol] at hx
    exact absurd hx not_usesHeap_None
  · cases hfind : assocFind c.items k with
    | some e =>
      have hmem : k ∈ keysOf c.items := mem_keysOf_of_find_some hfind
      cases hp : c.policy with
      | PolicyNone => exact absurd hp hpol
      | PolicyLRU =>
        intro hx
        rw [Set_policy, hp] at hx
        exact absurd hx not_usesHeap_LRU
      | PolicyFIFO =>
        intro hx
        rw [Set_policy, hp] at hx
        exact absurd hx not_usesHeap_FIFO
      | PolicyLFU | PolicyTTL =>
        have husen : usesHeap c.policy := by
          rw [hp]
          first
          | exact Or.inl rfl
          | exact Or.inr rfl
        obtain ⟨ee, hSet⟩ : ∃ ee : entry V,
            c.Set now k v = { c with items := assocSet c.items k ee, pq := heapFix (lessK c.policy (assocSet c.items k ee)) c.pq (idxOf k c.pq) } :=
          ⟨_, by simp only [Set, if_neg hpol, hfind]; rw [hp]⟩
        intro _
        rw [hSet]
        show HeapOrdered (lessK c.policy (assocSet c.items k ee))
          (heapFix (lessK c.policy (assocSet c.items k ee)) c.pq (idxOf k c.pq))
        have hq : c.pq.Perm (keysOf c.items) := hwf.2.2 husen
        exact heapFix_lessK_heapOrdered (hq.nodup_iff.mpr hwf.1)
          (fun a ha => hq.subset ha) (hhwf husen) (hq.mem_iff.mpr hmem) ee
    | none =>
      have hmem : k ∉ keysOf c.items := assocFind_eq_none_iff.mp hfind
      set cond := 0 < c.capacity ∧ c.capacity ≤ (c.items.length : Int) with hconddef
      have hc1 : ∃ c1 : Cache K V,
          (if cond then c.evict else c) = c1 ∧ c1.policy = c.policy ∧ WF c1 ∧
          HeapWF c1 ∧ k ∉ keysOf c1.items := by
        by_cases hcond : cond
        · have hlen : 0 < c.items.length := by
            obtain ⟨h1, h2⟩ := hcond
            omega
          have hne : c.items ≠ [] := by
            intro h0
            rw [h0] at hlen
            simp at hlen
          obtain ⟨k', hk'mem, hk'keys, hk'wf⟩ := evict_spec hwf hpol hne
          refine ⟨c.evict, if_pos hcond, evict_policy c, hk'wf,
            HeapWF_evict hwf hhwf, ?_⟩
          rw [hk'keys]
          intro hx2
          exact hmem (List.mem_of_mem_erase hx2)
        · exact ⟨c, if_neg hcond, rfl, hwf, hhwf, hmem⟩
      obtain ⟨c1, hc1eq, hc1pol, hc1wf, hc1hwf, hc1fresh⟩ := hc1
      cases hp1 : c1.policy with
      | PolicyNone => exact absurd (hc1pol.symm.trans hp1) hpol
      | PolicyLRU =>
        intro hx
        rw [Set_policy, ← hc1pol, hp1] at hx
        exact absurd hx not_usesHeap_LRU
      | PolicyFIFO =>
        intro hx
        rw [Set_policy, ← hc1pol, hp1] at hx
        exact absurd hx not_usesHeap_FIFO
      | PolicyLFU | PolicyTTL =>
        have husen : usesHeap c1.policy := by
          rw [hp1]
          first
          | exact Or.inl rfl
          | exact Or.inr rfl
        obtain ⟨ee, hSet⟩ : ∃ ee : entry V,
            c.Set now k v = { c1 with items := assocSet c1.items k ee, pq := heapPush (lessK c1.policy (assocSet c1.items k ee)) c1.pq k } :=
          ⟨_, by simp only [Set, if_neg hpol, hfind]; simp only [← hconddef]; rw [hc1eq, hp1]⟩
        intro _
        rw [hSet]
        show HeapOrdered (lessK c1.policy (assocSet c1.items k ee))
          (heapPush (lessK c1.policy (assocSet c1.items k ee)) c1.pq k)
        have hq1 : c1.pq.Perm (keysOf c1.items) := hc1wf.2.2 husen
        exact heapPush_lessK_heapOrdered (fun a ha => hq1.subset ha)
          (hc1hwf husen) hc1fresh (fun hx2 => hc1fresh (hq1.subset hx2)) ee

theorem HeapWF_Get {c : Cache K V} (hwf : WF c) (hhwf : HeapWF c) (now : Int)
    (k : K) : HeapWF (c.Get now k).1 := by
  by_cases hpol : c.policy = .PolicyNone
  · rw [GetNone_state now k hpol]
    exact hhwf
  · cases hfind : assocFind c.items k with
    | none =>
      have h1 : (c.Get now k).1 = c := by rw [Get_miss now k hfind]
      rw [h1]
      exact hhwf
    | some e =>
      by_cases hexp : 0 < e.expiration ∧ e.expiration < now
      · have h1 : (c.Get now k).1 = c.removeElement k := by
          rw [Get_expired hpol hfind hexp]
        rw [h1]
        exact HeapWF_removeElement hwf hhwf (mem_keysOf_of_find_some hfind)
      · have hmem : k ∈ keysOf c.items := mem_keysOf_of_find_some hfind
        cases hp : c.policy with
        | PolicyNone => exact absurd hp hpol
        | PolicyLRU =>
          intro hx
          rw [Get_policy, hp] at hx
          exact absurd hx not_usesHeap_LRU
        | PolicyFIFO =>
          intro hx
          rw [Get_policy, hp] at hx
          exact absurd hx not_usesHeap_FIFO
        | PolicyLFU | PolicyTTL =>
          have husen : usesHeap c.policy := by
            rw [hp]
            first
            | exact Or.inl rfl
            | exact Or.inr rfl
          obtain ⟨ee, hGet⟩ : ∃ ee : entry V,
              (c.Get now k).1 = { c with items := assocSet c.items k ee, pq := heapFix (lessK c.policy (assocSet c.items k ee)) c.pq (idxOf k c.pq) } :=
            ⟨_, by simp only [Get, if_neg hpol, hfind, if_neg hexp]; rw [hp]⟩
          intro _
          rw [hGet]
          show HeapOrdered (lessK c.policy (assocSet c.items k ee))
            (heapFix (lessK c.policy (assocSet c.items k ee)) c.pq (idxOf k c.pq))
          have hq : c.pq.Perm (keysOf c.items) := hwf.2.2 husen
          exact heapFix_lessK_heapOrdered (hq.nodup_iff.mpr hwf.1)
            (fun a ha => hq.subset ha) (hhwf husen) (hq.mem_iff.mpr hmem) ee

theorem HeapWF_Delete {c : Cache K V} (hwf : WF c) (hhwf : HeapWF c) (k : K) :
    HeapWF (c.Delete k) := by
  cases hfind : assocFind c.items k with
  | some e =>
    have h1 : c.Delete k = c.removeElement k := by
      simp only [Delete, hfind]
    rw [h1]
    exact HeapWF_removeElement hwf hhwf (mem_keysOf_of_find_some hfind)
  | none =>
    have h1 : c.Delete k = c := by
      simp only [Delete, hfind]
    rw [h1]
    exact hhwf

theorem HeapWF_Clear (c : Cache K V) : HeapWF (c.Clear) := by
  intro _ j hj _
  exact absurd hj (by simp [Clear])

theorem WF_applyOp {c : Cache K V} (hwf : WF c) (op : Op K V) :
    WF (c.applyOp op) := by
  cases op with
  | set now k v => exact (Set_spec hwf now k v).1
  | get now k => exact (WF_Get hwf now k).1
  | del k => exact (WF_Delete hwf k).1
  | clear => exact (WF_Clear c).1

theorem HeapWF_applyOp {c : Cache K V} (hwf : WF c) (hhwf : HeapWF c)
    (op : Op K V) : HeapWF (c.applyOp op) := by
  cases op with
  | set now k v => exact HeapWF_Set hwf hhwf now k v
  | get now k => exact HeapWF_Get hwf hhwf now k
  | del k => exact HeapWF_Delete hwf hhwf k
  | clear => exact HeapWF_Clear c

/-- The heap invariant holds in every state reachable from a well-formed
heap-ordered cache by an arbitrary operation sequence. -/
theorem HeapWF_run {c : Cache K V} (hwf : WF c) (hhwf : HeapWF c)
    (ops : List (Op K V)) : HeapWF (c.run ops) := by
  induction ops generalizing c with
  | nil => exact hhwf
  | cons op t ih =>
    exact ih (WF_applyOp hwf op) (HeapWF_applyOp hwf hhwf op)

end Cache

/-- C1: with capacity `c > 0` and a policy other than `PolicyNone`, `Len`
never exceeds the capacity after any sequence of `Set`/`Get`/`Delete`/`Clear`
operations (first conjunct), and a `Set` of a new key while `Len()` equals
the capacity evicts exactly one pre-existing entry — chosen from the cache
state before the insertion and distinct from the inserted key — so that
afterwards the new key is present, exactly the victim is gone, and `Len`
still equals the capacity (second conjunct). -/
theorem C1_capacity_invariant {K V : Type} [DecidableEq K] (cap : Int) (pol : Policy)
    (hpol : pol ≠ Policy.PolicyNone) (hcap : 0 < cap) :
    (∀ ops : List (Op K V),
       (((Cache.New [Cache.WithCapacity cap, Cache.WithPolicy pol]).run ops).Len : Int) ≤ cap) ∧
    (∀ (c : Cache K V) (now : Int) (k : K) (v : V),
       Cache.WF c → c.policy = pol → c.capacity = cap → (c.Len : Int) = cap →
       k ∉ keysOf c.items →
       ∃ k', k' ∈ keysOf c.items ∧ k' ≠ k ∧
         (c.Set now k v).Len = c.Len ∧
         (∀ k'', k'' ∈ keysOf (c.Set now k v).items ↔
            (k'' = k ∨ (k'' ∈ keysOf c.items ∧ k'' ≠ k')))) := by
  constructor
  · intro ops
    have h0 := Cache.run_inv (c := Cache.New [Cache.WithCapacity cap, Cache.WithPolicy pol])
      (Cache.WF_New_two_opts cap pol) ops
      (by rw [Cache.New_two_opts]; exact hpol)
      (by rw [Cache.New_two_opts]; exact hcap)
      (by rw [Cache.New_two_opts]; simp only [List.length_nil, Nat.cast_zero]; omega)
    have h1 := h0.2.2.2
    have h2 : (Cache.New [Cache.WithCapacity cap, Cache.WithPolicy pol] : Cache K V).capacity
        = cap := by rw [Cache.New_two_opts]
    rw [h2] at h1
    exact h1
  · intro c now k v hwf hp hc hlen hfresh
    have hnodup := hwf.1
    obtain ⟨hwf', hmemcase, hnewcase⟩ := Cache.Set_spec hwf now k v
    have hcap' : 0 < c.capacity := by rw [hc]; exact hcap
    have hlen' : c.capacity ≤ (c.items.length : Int) := by
      rw [hc]
      exact le_of_eq hlen.symm
    obtain ⟨k', hk'mem, hkeq⟩ := (hnewcase hfresh).2 (by rw [hp]; exact hpol) hcap' hlen'
    have hk'ne : k' ≠ k := fun h => hfresh (h ▸ hk'mem)
    refine ⟨k', hk'mem, hk'ne, ?_, ?_⟩
    · show (c.Set now k v).items.length = c.items.length
      rw [← Cache.keysOf_length, hkeq]
      have h1 : ((keysOf c.items).erase k').length = (keysOf c.items).length - 1 :=
        List.length_erase_of_mem hk'mem
      have h2 : 0 < (keysOf c.items).length := List.length_pos.mpr (by
        intro h0
        rw [h0] at hk'mem
        simp at hk'mem)
      have h3 := Cache.keysOf_length (V := V) c.items
      simp only [List.length_append, List.length_cons, List.length_nil]
      omega
    · intro k''
      rw [hkeq]
      rw [List.mem_append]
      constructor
      · intro h
        rcases h with h | h
        · obtain ⟨hne, hmem⟩ := (hnodup.mem_erase_iff).mp h
          exact Or.inr ⟨hmem, hne⟩
        · simp at h
          exact Or.inl h
      · intro h
        rcases h with h | ⟨hmem, hne⟩
        · right
          simp [h]
        · left
          exact (hnodup.mem_erase_iff).mpr ⟨hne, hmem⟩


/-- Witness for C1 at a concrete instance: capacity 2, `PolicyLRU`,
three distinct `Set`s stay within the bound, and a cache at capacity evicts
exactly one entry on `Set` of a fresh key. -/
theorem C1_capacity_invariant_witness :
    ((((Cache.New [Cache.WithCapacity 2, Cache.WithPolicy Policy.PolicyLRU] : Cache Nat Nat).run
        [Op.set 1 10 1, Op.set 2 20 2, Op.set 3 30 3]).Len : Int) ≤ 2) ∧
    (∃ k', k' ∈ keysOf c1w.items ∧ k' ≠ 30 ∧
       (c1w.Set 3 30 3).Len = c1w.Len ∧
       (∀ k'', k'' ∈ keysOf (c1w.Set 3 30 3).items ↔
          (k'' = 30 ∨ (k'' ∈ keysOf c1w.items ∧ k'' ≠ k')))) :=
  ⟨(C1_capacity_invariant 2 Policy.PolicyLRU (by decide) (by decide)).1 _,
   (C1_capacity_invariant 2 Policy.PolicyLRU (by decide) (by decide)).2
     c1w 3 30 3 (by decide) (by decide) (by decide) (by decide) (by decide)⟩


/-- C3: under `PolicyLRU`, a non-expired `Get` hit and a `Set` of an existing
key both move the entry to the most-recently-used front of the recency list;
a `Set` of a new key inserts at the front; `evict` removes the entry at the
back of the recency list; and for the concrete sequence
`Set(a,1); Set(b,2); Get(a); Set(c,3)` with capacity 2, `b` is evicted while
`a` and `c` remain. -/
theorem C3_lru_eviction_order {K V : Type} [DecidableEq K] :
    (∀ (c : Cache K V) (now : Int) (k : K) (e : entry V),
       c.policy = .PolicyLRU → assocFind c.items k = some e →
       ¬(0 < e.expiration ∧ e.expiration < now) →
       (c.Get now k).1.evictList = Cache.moveToFront c.evictList k) ∧
    (∀ (c : Cache K V) (now : Int) (k : K) (v : V) (e : entry V),
       c.policy = .PolicyLRU → assocFind c.items k = some e →
       (c.Set now k v).evictList = Cache.moveToFront c.evictList k) ∧
    (∀ (c : Cache K V) (now : Int) (k : K) (v : V),
       c.policy = .PolicyLRU → assocFind c.items k = none →
       (c.Set now k v).evictList =
         k :: (if 0 < c.capacity ∧ c.capacity ≤ (c.items.length : Int) then c.evict
               else c).evictList) ∧
    (∀ (c : Cache K V) (k : K), Cache.WF c → c.policy = .PolicyLRU →
       c.evictList.getLast? = some k →
       keysOf (c.evict).items = (keysOf c.items).erase k) ∧
    ((c3ex.Get 5 20).2 = none ∧ (c3ex.Get 5 10).2 = some 1 ∧
      (c3ex.Get 5 30).2 = some 3) := by
  refine ⟨?_, ?_, ?_, ?_, by decide⟩
  · intro c now k e hp hfind hnexp
    have hpol : c.policy ≠ .PolicyNone := by rw [hp]; decide
    exact (Cache.Get_hit hpol hfind hnexp).2.2.2.2.2.2.2.2.2 hp
  · intro c now k v e hp hfind
    exact Cache.Set_hit_LRU_evictList hp hfind
  · intro c now k v hp hfind
    exact Cache.Set_fresh_LRU_evictList hp hfind
  · intro c k hwf hp hlast
    exact Cache.evict_LRU_victim hwf hp hlast

/-- Witness for C3: on a 2-entry LRU cache, a `Get` hit moves the key to the
front of the recency list. -/
theorem C3_lru_eviction_order_witness :
    (c1w.Get 3 10).1.evictList = Cache.moveToFront c1w.evictList 10 :=
  C3_lru_eviction_order.1 c1w 3 10 ⟨1, 1, 1, 1, 0⟩ (by decide) (by decide) (by decide)

/-- C4: the `GetOrSet` single-flight wrapper is modelled from the spec (its
implementation is not among the provided sources, only its test): when the
key is absent and the loader fails, the error is returned, nothing is written
to the cache (the key is still absent afterwards), and a subsequent call for
the same key invokes the loader again. -/
theorem C4_error_not_cached {K V E : Type} [DecidableEq K] (c : Cache K V)
    (now now' : Int) (k : K) (err : E) (loader loader' : Unit → Except E V)
    (hfind : assocFind c.items k = none) (hload : loader () = Except.error err) :
    c.GetOrSet now k loader = (c, Except.error err, true) ∧
    assocFind ((c.GetOrSet now k loader).1).items k = none ∧
    (((c.GetOrSet now k loader).1).GetOrSet now' k loader').2.2 = true := by
  have h1 := Cache.GetOrSet_error now hfind hload
  refine ⟨h1, ?_, ?_⟩
  · rw [h1]
    exact hfind
  · rw [h1]
    exact Cache.GetOrSet_miss_invokes now' hfind

/-- Witness for C4 at a concrete failing loader on an empty cache. -/
theorem C4_error_not_cached_witness :
    (Cache.New [] : Cache Nat Nat).GetOrSet 1 10 (fun _ => Except.error "boom") =
      (Cache.New [], Except.error "boom", true) ∧
    assocFind (((Cache.New [] : Cache Nat Nat).GetOrSet 1 10
      (fun _ => Except.error "boom")).1).items 10 = none ∧
    ((((Cache.New [] : Cache Nat Nat).GetOrSet 1 10
      (fun _ => Except.error "boom")).1).GetOrSet 2 10
      (fun _ => Except.error "again")).2.2 = true :=
  C4_error_not_cached (Cache.New []) 1 2 10 "boom"
    (fun _ => Except.error "boom") (fun _ => Except.error "again") (by decide) rfl


/-- C5: TTL expiration is lazy.  `Len` is the raw store size, so an expired
but untouched entry still counts; the next `Get` past the expiration returns
a miss (`none`, the Go `(zero value, false)`), removes the entry (the key no
longer resolves) and shrinks `Len` by exactly one.  No capacity hypothesis
appears: this holds regardless of capacity pressure. -/
theorem C5_lazy_expiration {K V : Type} [DecidableEq K] (c : Cache K V) (now : Int)
    (k : K) (e : entry V) (hwf : Cache.WF c) (hpol : c.policy ≠ .PolicyNone)
    (hfind : assocFind c.items k = some e)
    (hexp : 0 < e.expiration) (hnow : e.expiration < now) :
    c.Len = c.items.length ∧
    k ∈ keysOf c.items ∧
    (c.Get now k).2 = none ∧
    assocFind ((c.Get now k).1).items k = none ∧
    ((c.Get now k).1).Len + 1 = c.Len := by
  have hG := Cache.Get_expired hpol hfind ⟨hexp, hnow⟩
  have hmem : k ∈ keysOf c.items := mem_keysOf_of_find_some hfind
  refine ⟨rfl, hmem, by rw [hG], ?_, ?_⟩
  · rw [hG]
    show assocFind (c.removeElement k).items k = none
    rw [Cache.removeElement_items]
    exact assocFind_assocErase_self hwf.1
  · rw [hG]
    show (c.removeElement k).items.length + 1 = c.items.length
    rw [Cache.removeElement_items]
    exact length_assocErase_of_mem hmem

/-- Witness for C5: the entry stored at time 0 with TTL 50 misses and is
removed by a `Get` at time 100. -/
theorem C5_lazy_expiration_witness :
    c5w.Len = c5w.items.length ∧
    10 ∈ keysOf c5w.items ∧
    (c5w.Get 100 10).2 = none ∧
    assocFind ((c5w.Get 100 10).1).items 10 = none ∧
    ((c5w.Get 100 10).1).Len + 1 = c5w.Len :=
  C5_lazy_expiration c5w 100 10 ⟨1, 0, 0, 1, 50⟩ (by decide) (by decide) (by decide)
    (by decide) (by decide)


/-- C6: under any bookkeeping policy a fresh entry starts with frequency 1,
and both a non-expired `Get` hit and a `Set` of an existing key increment the
frequency; under `PolicyLFU`, when the priority queue satisfies the heap
invariant (the `container/heap` contract), `evict` removes an entry whose
`(frequency, accessTime)` pair is minimal: every live entry has a strictly
larger frequency or an equal frequency and a no-older access time.  The final
clause discharges that hypothesis: the heap invariant is preserved by every
operation sequence from any well-formed heap-ordered LFU cache (in particular
from a fresh cache, whose queue is empty), so it holds in every reachable
state. -/
theorem C6_lfu_frequency_and_eviction {K V : Type} [DecidableEq K] :
    (∀ (c : Cache K V) (now : Int) (k : K) (v : V), c.policy ≠ .PolicyNone →
       assocFind c.items k = none →
       ∃ ee, assocFind (c.Set now k v).items k = some ee ∧ ee.frequency = 1) ∧
    (∀ (c : Cache K V) (now : Int) (k : K) (e : entry V), c.policy ≠ .PolicyNone →
       assocFind c.items k = some e → ¬(0 < e.expiration ∧ e.expiration < now) →
       ∃ ee, assocFind ((c.Get now k).1).items k = some ee ∧
         ee.frequency = e.frequency + 1) ∧
    (∀ (c : Cache K V) (now : Int) (k : K) (v : V) (e : entry V), c.policy ≠ .PolicyNone →
       assocFind c.items k = some e →
       ∃ ee, assocFind (c.Set now k v).items k = some ee ∧
         ee.frequency = e.frequency + 1) ∧
    (∀ c : Cache K V, c.policy = .PolicyLFU → Cache.WF c → c.items ≠ [] →
       HeapOrdered (Cache.lessK c.policy c.items) c.pq →
       ∃ k0 e0, assocFind c.items k0 = some e0 ∧
         keysOf (c.evict).items = (keysOf c.items).erase k0 ∧
         ∀ k' e', assocFind c.items k' = some e' →
           e0.frequency < e'.frequency ∨
             (e0.frequency = e'.frequency ∧ e0.accessTime ≤ e'.accessTime)) ∧
    (∀ c0 : Cache K V, c0.policy = .PolicyLFU → Cache.WF c0 →
       HeapOrdered (Cache.lessK c0.policy c0.items) c0.pq →
       ∀ ops : List (Op K V),
         HeapOrdered (Cache.lessK ((c0.run ops)).policy ((c0.run ops)).items)
           ((c0.run ops)).pq) := by
  refine ⟨?_, ?_, ?_, ?_, ?_⟩
  · intro c now k v hpol hfind
    exact ⟨_, Cache.Set_fresh_find hpol hfind, rfl⟩
  · intro c now k e hpol hfind hnexp
    exact ⟨_, (Cache.Get_hit hpol hfind hnexp).2.1, rfl⟩
  · intro c now k v e hpol hfind
    exact ⟨_, Cache.Set_hit_find hpol hfind, rfl⟩
  · intro c hp hwf hne hord
    obtain ⟨k0, hk00, hk0mem, hkeys⟩ :=
      Cache.evict_heap_victim hwf (by rw [hp]; exact Or.inl rfl) hne
    obtain ⟨e0, he0⟩ := find_isSome_of_mem_keysOf hk0mem
    refine ⟨k0, e0, he0, hkeys, ?_⟩
    intro k' e' he'
    have hq : c.pq.Perm (keysOf c.items) := hwf.2.2 (by rw [hp]; exact Or.inl rfl)
    have hk'pq : k' ∈ c.pq := hq.mem_iff.mpr (mem_keysOf_of_find_some he')
    have hi : idxOf k' c.pq < c.pq.length := idxOf_lt_length hk'pq
    have hik : c.pq[idxOf k' c.pq]? = some k' := getElem?_idxOf hk'pq
    have hfind_mem : ∀ a ∈ c.pq, ∃ ea, assocFind c.items a = some ea := by
      intro a ha
      exact find_isSome_of_mem_keysOf (hq.mem_iff.mp ha)
    have hirr : ∀ a ∈ c.pq, Cache.lessK c.policy c.items a a = false := by
      intro a ha
      obtain ⟨ea, hea⟩ := hfind_mem a ha
      simp only [Cache.lessK, hea]
      exact pqLess_irrefl _ _
    have hnt : ∀ a b c'', a ∈ c.pq → b ∈ c.pq → c'' ∈ c.pq →
        Cache.lessK c.policy c.items a b = false →
        Cache.lessK c.policy c.items b c'' = false →
        Cache.lessK c.policy c.items a c'' = false := by
      intro a b c'' ha hb hc h1 h2
      obtain ⟨ea, hea⟩ := hfind_mem a ha
      obtain ⟨eb, heb⟩ := hfind_mem b hb
      obtain ⟨ec, hec⟩ := hfind_mem c'' hc
      simp only [Cache.lessK, hea, heb, hec] at h1 h2 ⊢
      exact pqLess_negTrans _ _ _ _ h1 h2
    have hmin := heap_root_min _ hord hirr hnt (idxOf k' c.pq) hi k0 k' hk00 hik
    simp only [Cache.lessK, he', he0] at hmin
    rw [hp] at hmin
    simp only [pqLess] at hmin
    split_ifs at hmin with hf
    · right
      simp only [decide_eq_false_iff_not, not_lt] at hmin
      exact ⟨hf.symm, hmin⟩
    · left
      simp only [decide_eq_false_iff_not, not_lt] at hmin
      omega
  · intro c0 hp0 hwf0 hord0 ops
    have hhwf0 : Cache.HeapWF c0 := fun _ => hord0
    apply Cache.HeapWF_run hwf0 hhwf0 ops
    rw [Cache.run_policy, hp0]
    exact Or.inl rfl

/-- Witness for C6's eviction clause at a concrete LFU cache (frequencies 3
and 2). -/
theorem C6_lfu_frequency_and_eviction_witness :
    ∃ k0 e0, assocFind c6w.items k0 = some e0 ∧
      keysOf (c6w.evict).items = (keysOf c6w.items).erase k0 ∧
      ∀ k' e', assocFind c6w.items k' = some e' →
        e0.frequency < e'.frequency ∨
          (e0.frequency = e'.frequency ∧ e0.accessTime ≤ e'.accessTime) :=
  C6_lfu_frequency_and_eviction.2.2.2.1 c6w (by decide) (by decide) (by decide) (by decide)


/-- C7: under `PolicyTTL`, when the priority queue satisfies the heap
invariant (the `container/heap` contract), `evict` removes an entry that
expires no later than any live entry with a real expiration, and an entry
with no expiration (`expiration = 0`) is never the victim while an entry
with a real expiration is present.  The second clause discharges that
hypothesis: the heap invariant is preserved by every operation sequence from
any well-formed heap-ordered TTL cache (in particular from a fresh cache,
whose queue is empty), so it holds in every reachable state. -/
theorem C7_ttl_eviction_order {K V : Type} [DecidableEq K] :
    (∀ c : Cache K V, c.policy = .PolicyTTL → Cache.WF c → c.items ≠ [] →
      HeapOrdered (Cache.lessK c.policy c.items) c.pq →
      ∃ k0 e0, assocFind c.items k0 = some e0 ∧
        keysOf (c.evict).items = (keysOf c.items).erase k0 ∧
        ∀ k' e', assocFind c.items k' = some e' → e'.expiration ≠ 0 →
          e0.expiration ≠ 0 ∧ e0.expiration ≤ e'.expiration) ∧
    (∀ c0 : Cache K V, c0.policy = .PolicyTTL → Cache.WF c0 →
      HeapOrdered (Cache.lessK c0.policy c0.items) c0.pq →
      ∀ ops : List (Op K V),
        HeapOrdered (Cache.lessK ((c0.run ops)).policy ((c0.run ops)).items)
          ((c0.run ops)).pq) := by
  refine ⟨?_, ?_⟩
  · intro c hp hwf hne hord
    obtain ⟨k0, hk00, hk0mem, hkeys⟩ :=
      Cache.evict_heap_victim hwf (by rw [hp]; exact Or.inr rfl) hne
    obtain ⟨e0, he0⟩ := find_isSome_of_mem_keysOf hk0mem
    refine ⟨k0, e0, he0, hkeys, ?_⟩
    intro k' e' he' hexp'
    have hq : c.pq.Perm (keysOf c.items) := hwf.2.2 (by rw [hp]; exact Or.inr rfl)
    have hk'pq : k' ∈ c.pq := hq.mem_iff.mpr (mem_keysOf_of_find_some he')
    have hi : idxOf k' c.pq < c.pq.length := idxOf_lt_length hk'pq
    have hik : c.pq[idxOf k' c.pq]? = some k' := getElem?_idxOf hk'pq
    have hfind_mem : ∀ a ∈ c.pq, ∃ ea, assocFind c.items a = some ea := by
      intro a ha
      exact find_isSome_of_mem_keysOf (hq.mem_iff.mp ha)
    have hirr : ∀ a ∈ c.pq, Cache.lessK c.policy c.items a a = false := by
      intro a ha
      obtain ⟨ea, hea⟩ := hfind_mem a ha
      simp only [Cache.lessK, hea]
      exact pqLess_irrefl _ _
    have hnt : ∀ a b c'', a ∈ c.pq → b ∈ c.pq → c'' ∈ c.pq →
        Cache.lessK c.policy c.items a b = false →
        Cache.lessK c.policy c.items b c'' = false →
        Cache.lessK c.policy c.items a c'' = false := by
      intro a b c'' ha hb hc h1 h2
      obtain ⟨ea, hea⟩ := hfind_mem a ha
      obtain ⟨eb, heb⟩ := hfind_mem b hb
      obtain ⟨ec, hec⟩ := hfind_mem c'' hc
      simp only [Cache.lessK, hea, heb, hec] at h1 h2 ⊢
      exact pqLess_negTrans _ _ _ _ h1 h2
    have hmin := heap_root_min _ hord hirr hnt (idxOf k' c.pq) hi k0 k' hk00 hik
    simp only [Cache.lessK, he', he0] at hmin
    rw [hp] at hmin
    simp only [pqLess] at hmin
    split_ifs at hmin with h1 h2 h3 <;>
      first
      | exact absurd h1.1 hexp'
      | exact absurd h2 hexp'
      | (exfalso
         revert hmin
         simp
         done)
      | (refine ⟨?_, ?_⟩
         · assumption
         · simp only [decide_eq_false_iff_not, not_lt] at hmin
           exact hmin)

  · intro c0 hp0 hwf0 hord0 ops
    have hhwf0 : Cache.HeapWF c0 := fun _ => hord0
    apply Cache.HeapWF_run hwf0 hhwf0 ops
    rw [Cache.run_policy, hp0]
    exact Or.inr rfl

/-- Witness for C7 at a concrete TTL cache whose entries expire at 100 and
110. -/
theorem C7_ttl_eviction_order_witness :
    ∃ k0 e0, assocFind c7w.items k0 = some e0 ∧
      keysOf (c7w.evict).items = (keysOf c7w.items).erase k0 ∧
      ∀ k' e', assocFind c7w.items k' = some e' → e'.expiration ≠ 0 →
        e0.expiration ≠ 0 ∧ e0.expiration ≤ e'.expiration :=
  C7_ttl_eviction_order.1 c7w (by decide) (by decide) (by decide) (by decide)


/-- Counterexample to C8 as stated: two distinct live entries of a
`PolicyTTL` cache with the same nonzero expiration are mutually
incomparable under `priorityQueue.Less` — the tie does **not** fall back to
a secondary key, so the ordering is not total on distinct live entries. -/
theorem C8_counterexample :
    assocFind c8x.items 10 = some ⟨1, 3, 1, 2, 101⟩ ∧
    assocFind c8x.items 20 = some ⟨2, 1, 1, 1, 101⟩ ∧
    (⟨1, 3, 1, 2, 101⟩ : entry Nat) ≠ ⟨2, 1, 1, 1, 101⟩ ∧
    pqLess c8x.policy ⟨1, 3, 1, 2, 101⟩ ⟨2, 1, 1, 1, 101⟩ = false ∧
    pqLess c8x.policy ⟨2, 1, 1, 1, 101⟩ ⟨1, 3, 1, 2, 101⟩ = false := by
  decide

/-- C8 (amended): for the LFU and TTL policies, `priorityQueue.Less` is a
strict weak ordering — irreflexive, transitive, and with a transitive
"not strictly below" complement (so incomparability is an equivalence and
heap operations are deterministic for a fixed operation sequence) — but it
is not total: distinct entries that tie on every compared field (under TTL,
any two entries with the same nonzero expiration) are mutually
incomparable. -/
theorem C8_pqLess_strict_weak_order {V : Type} (p : Policy)
    (hp : p = Policy.PolicyLFU ∨ p = Policy.PolicyTTL) :
    (∀ a : entry V, pqLess p a a = false) ∧
    (∀ a b c' : entry V, pqLess p a b = true → pqLess p b c' = true →
       pqLess p a c' = true) ∧
    (∀ a b c' : entry V, pqLess p a b = false → pqLess p b c' = false →
       pqLess p a c' = false) := by
  rcases hp with hp | hp <;> subst hp <;>
    exact ⟨fun a => pqLess_irrefl _ a,
      fun a b c' => pqLess_trans _ a b c',
      fun a b c' => pqLess_negTrans _ a b c'⟩

/-- Witness for the amended C8: irreflexivity at a concrete LFU entry. -/
theorem C8_pqLess_strict_weak_order_witness :
    pqLess Policy.PolicyLFU (⟨0, 0, 0, 1, 0⟩ : entry Nat) ⟨0, 0, 0, 1, 0⟩ = false :=
  (C8_pqLess_strict_weak_order Policy.PolicyLFU (Or.inl rfl)).1 ⟨0, 0, 0, 1, 0⟩

/-- Counterexample to C9 as stated: constructing a cache with capacity `-1`
does not fail at `New` — `New` is total, the negative capacity is stored
verbatim (not clamped), and the cache operates as unbounded: two inserts
both stay resident. -/
theorem C9_counterexample :
    (Cache.New [Cache.WithCapacity (-1)] : Cache Nat Nat).capacity = -1 ∧
    (((Cache.New [Cache.WithCapacity (-1)] : Cache Nat Nat).Set 1 10 1).Set 2 20 2).Len = 2 ∧
    ((((Cache.New [Cache.WithCapacity (-1)] : Cache Nat Nat).Set 1 10 1).Set 2 20 2).Get
      3 10).2 = some 1 := by
  decide

/-- C9 (amended): `New` performs no validation of the configured capacity:
a negative capacity is stored as given, and because eviction only triggers
when `capacity > 0`, a `Set` of a new key on such a cache always grows it by
one entry — the misconfiguration is silently ignored (unbounded behavior),
not rejected at construction. -/
theorem C9_negative_capacity_ignored {K V : Type} [DecidableEq K] (cap : Int)
    (hcap : cap ≤ 0) :
    ((Cache.New [Cache.WithCapacity cap] : Cache K V).capacity = cap) ∧
    (∀ c : Cache K V, Cache.WF c → c.capacity = cap →
      ∀ (now : Int) (k : K) (v : V), k ∉ keysOf c.items →
        (c.Set now k v).Len = c.Len + 1) := by
  refine ⟨rfl, ?_⟩
  intro c hwf hc now k v hfresh
  obtain ⟨_, _, hnewcase⟩ := Cache.Set_spec hwf now k v
  have hkeys : keysOf (c.Set now k v).items = keysOf c.items ++ [k] := by
    apply (hnewcase hfresh).1
    right
    intro hcontra
    rw [hc] at hcontra
    omega
  show (c.Set now k v).items.length = c.items.length + 1
  rw [← Cache.keysOf_length, hkeys]
  simp only [List.length_append, List.length_cons, List.length_nil]
  rw [Cache.keysOf_length]


/-- Witness for the amended C9: on a capacity `-1` cache holding one entry,
a fresh `Set` grows the cache. -/
theorem C9_negative_capacity_ignored_witness :
    (Cache.New [Cache.WithCapacity (-1)] : Cache Nat Nat).capacity = -1 ∧
    (c9wc.Set 2 20 2).Len = c9wc.Len + 1 :=
  ⟨(C9_negative_capacity_ignored (-1) (by decide)).1,
   (C9_negative_capacity_ignored (-1) (by decide)).2 c9wc (by decide) (by decide)
     2 20 2 (by decide)⟩

/-- C10: under `PolicyNone` a configured TTL has no effect.  A fresh `Set`
stores an entry with expiration 0 (and no other metadata); `Get` performs a
pure lookup whose state and result do not depend on the clock at all; and
for every operation sequence run from a `PolicyNone` cache built with any
TTL, a key whose last `Set` wrote `v` and that was not subsequently deleted
or cleared is returned as `some v` (found) by `Get` at any time
whatsoever. -/
theorem C10_policy_none_ignores_ttl {K V : Type} [DecidableEq K] (ttl : Int) :
    (∀ (c : Cache K V) (now : Int) (k : K) (v : V), c.policy = .PolicyNone →
       assocFind c.items k = none →
       assocFind (c.Set now k v).items k = some ⟨v, 0, 0, 0, 0⟩) ∧
    (∀ (c : Cache K V) (now now' : Int) (k : K), c.policy = .PolicyNone →
       c.Get now k = c.Get now' k ∧ (c.Get now k).1 = c) ∧
    (∀ (ops : List (Op K V)) (k : K) (v : V),
       Cache.lastWrite k ops = some v →
       ∀ now : Int,
         (((Cache.New [Cache.WithPolicy Policy.PolicyNone, Cache.WithTTL ttl] :
             Cache K V).run ops).Get now k).2 = some v) := by
  refine ⟨?_, ?_, ?_⟩
  · intro c now k v hpol hfind
    rw [Cache.SetNone_find_self now k v hpol, hfind]
  · intro c now now' k hpol
    rw [Cache.Get_policyNone now k hpol, Cache.Get_policyNone now' k hpol]
    exact ⟨rfl, rfl⟩
  · intro ops k v hlast now
    have hpol0 : (Cache.New [Cache.WithPolicy Policy.PolicyNone, Cache.WithTTL ttl] :
        Cache K V).policy = .PolicyNone := rfl
    obtain ⟨e, hfind, hval⟩ :=
      Cache.runNone_aux hpol0 ops k none (fun v hv => Option.noConfusion hv) v hlast
    have hpolrun : ((Cache.New [Cache.WithPolicy Policy.PolicyNone, Cache.WithTTL ttl] :
        Cache K V).run ops).policy = .PolicyNone :=
      (Cache.run_policy _ ops).trans hpol0
    rw [Cache.Get_policyNone now k hpolrun]
    show (assocFind _ k).map _ = some v
    rw [hfind]
    simp only [Option.map]
    rw [hval]

/-- Witness for C10: a `PolicyNone` cache with TTL 50 still returns the
stored value at an arbitrarily late time. -/
theorem C10_policy_none_ignores_ttl_witness :
    (((Cache.New [Cache.WithPolicy Policy.PolicyNone, Cache.WithTTL 50] :
        Cache Nat Nat).run [Op.set 1 10 7]).Get 1000000 10).2 = some 7 :=
  (C10_policy_none_ignores_ttl 50).2.2 [Op.set 1 10 7] 10 7 (by decide) 1000000
